import Mathlib

/-!
Verification of the `intermodal` container-image client against its
natural-language specification.

The development shallowly embeds the Rust sources:

* `src/image/docker/reference/parser/mod.rs` — the anchored regular
  expressions of the distribution reference grammar, embedded as decidable
  recognizers over `List Char`;
* `src/image/docker/reference/api.rs` — `parse` and `get_domain_name`;
* `src/image/docker/reference/types.rs` — `DockerReference` and
  `get_string_within_transport`;
* `src/image/docker/transport.rs` and `src/image/transports.rs` — the
  transport dispatch (`parse_reference`, `parse_image_name`,
  `transport_from_image_name`);
* `src/image/oci/digest/mod.rs` — `Digest`, `new_from_str`, `from_str`,
  `digester`, `verify`;
* `src/image/platform.rs` and `src/image/docker/image.rs` — platform
  normalization and `manifest_for_our_os_arch`;
* `src/image/manifest/mod.rs` and `src/image/docker/client.rs` — the
  supported-manifest Accept header and `do_get_manifest`;
* `src/image/api/pull.rs` — `pull_container_image`,
  `perform_image_pull` (layer phase) and `do_download_image_layer`;
* `src/storage/overlay.rs` — `apply_layer` / `handle_whiteout`.

Strings are embedded as `List Char` (Rust `&str` slices of the inputs in
question are ASCII, so byte indices and character indices coincide).
Fallible Rust code returns `Except`; code that may `unwrap()` a `None`
(a Rust panic) returns a dedicated three-valued result type `PRes`.
-/

namespace Intermodal

/-- Strings as lists of characters. -/
abbrev Str := List Char

/-- Result of running Rust code that may return `Ok`, return `Err`, or
panic (an `unwrap()` of `None`/`Err`).  -/
inductive PRes (ε : Type) (α : Type) where
  | ok (a : α)
  | err (e : ε)
  | panic
  deriving Repr, DecidableEq

/-! ## Generic string helpers (Rust `str` operations)

`splitFirst c l` models `l.splitn(2, c)` when it actually splits:
`some (a, b)` means `l = a ++ c :: b` with no `c` in `a`.  -/

/-- Split at the first occurrence of `c`: `some (before, after)`, or
`none` when `c` does not occur. -/
def splitFirst (c : Char) : Str → Option (Str × Str)
  | [] => none
  | a :: t =>
    if a = c then some ([], t)
    else
      match splitFirst c t with
      | none => none
      | some (x, y) => some (a :: x, y)

/-- Split at the last occurrence of `c` (via the reversed list). -/
def splitLast (c : Char) (l : Str) : Option (Str × Str) :=
  match splitFirst c l.reverse with
  | none => none
  | some (x, y) => some (y.reverse, x.reverse)

/-- Rust `s.splitn(2, c).collect::<Vec<_>>()`. -/
def splitN2 (c : Char) (l : Str) : List Str :=
  match splitFirst c l with
  | none => [l]
  | some (a, b) => [a, b]

/-- Rust `s.contains(pat)` for a multi-character pattern (substring
search); also models `s.find(pat).is_some()`. -/
def containsSub (pat : Str) : Str → Bool
  | [] => pat.isPrefixOf []
  | c :: t => pat.isPrefixOf (c :: t) || containsSub pat t

/-- Fuel-driven worker for `replaceAll`; fuel bounds the number of steps
(each step consumes at least one character when `pat ≠ []`). -/
def replAllGo (pat : Str) : Nat → Str → Str
  | 0, l => l
  | _ + 1, [] => []
  | n + 1, c :: t =>
    if pat.isPrefixOf (c :: t) then replAllGo pat n ((c :: t).drop pat.length)
    else c :: replAllGo pat n t

/-- Rust `s.replace(pat, "")`: remove every (leftmost, non-overlapping)
occurrence of `pat`.  (The source only ever replaces by the empty
string.) -/
def replaceAll (pat l : Str) : Str :=
  if pat = [] then l else replAllGo pat l.length l

/-- Fuel-driven worker for `splitSub`. -/
def splitSubGo (pat : Str) : Nat → Str → List Str
  | 0, l => [l]
  | _ + 1, [] => [[]]
  | n + 1, c :: t =>
    if pat.isPrefixOf (c :: t) then [] :: splitSubGo pat n ((c :: t).drop pat.length)
    else
      match splitSubGo pat n t with
      | [] => [[]]
      | x :: xs => (c :: x) :: xs

/-- Rust `s.split(pat).collect::<Vec<_>>()` for a multi-character
pattern (scan left to right, cut at each non-overlapping match). -/
def splitSub (pat l : Str) : List Str :=
  if pat = [] then [l] else splitSubGo pat l.length l

/-! ### Lemmas about the string helpers -/

theorem splitFirst_of_not_mem {c : Char} {l : Str} (h : c ∉ l) :
    splitFirst c l = none := by
  induction l with
  | nil => rfl
  | cons a t ih =>
    simp only [List.mem_cons, not_or] at h
    simp [splitFirst, h.1, ih h.2, Ne.symm h.1]

theorem splitFirst_append {c : Char} {a : Str} (x : Str) (h : c ∉ a) :
    splitFirst c (a ++ c :: x) = some (a, x) := by
  induction a with
  | nil => simp [splitFirst]
  | cons b t ih =>
    simp only [List.mem_cons, not_or] at h
    have hbc : ¬b = c := fun hbc => h.1 hbc.symm
    simp [splitFirst, hbc, ih h.2]

theorem splitFirst_eq_some {c : Char} {l a b : Str}
    (h : splitFirst c l = some (a, b)) : l = a ++ c :: b ∧ c ∉ a := by
  induction l generalizing a b with
  | nil => simp [splitFirst] at h
  | cons d t ih =>
    by_cases hd : d = c
    · subst hd
      simp [splitFirst] at h
      refine ⟨?_, ?_⟩
      · simp [h.1, h.2]
      · simp [h.1]
    · simp only [splitFirst, if_neg hd] at h
      cases he : splitFirst c t with
      | none => rw [he] at h; simp at h
      | some p =>
        rw [he] at h
        cases p with
        | mk x y =>
          simp at h
          obtain ⟨ha, hb⟩ := h
          obtain ⟨ht, hx⟩ := ih he
          subst ha hb
          constructor
          · simp [ht]
          · simp only [List.mem_cons, not_or]
            exact ⟨fun hcd => hd hcd.symm, hx⟩

theorem splitLast_append {c : Char} (x : Str) {y : Str} (h : c ∉ y) :
    splitLast c (x ++ c :: y) = some (x, y) := by
  have hrev : (x ++ c :: y).reverse = y.reverse ++ c :: x.reverse := by
    simp
  have hy : c ∉ y.reverse := by simpa using h
  simp [splitLast, hrev, splitFirst_append x.reverse hy]

theorem splitLast_of_not_mem {c : Char} {l : Str} (h : c ∉ l) :
    splitLast c l = none := by
  have : c ∉ l.reverse := by simpa using h
  simp [splitLast, splitFirst_of_not_mem this]

theorem containsSub_head_mem {c : Char} {p l : Str}
    (h : containsSub (c :: p) l = true) : c ∈ l := by
  induction l with
  | nil => simp [containsSub, List.isPrefixOf] at h
  | cons a t ih =>
    simp only [containsSub, Bool.or_eq_true] at h
    rcases h with h | h
    · simp only [List.isPrefixOf, Bool.and_eq_true, beq_iff_eq] at h
      simp [h.1]
    · exact List.mem_cons_of_mem _ (ih h)

theorem containsSub_of_not_mem {c : Char} {p l : Str} (h : c ∉ l) :
    containsSub (c :: p) l = false := by
  by_contra hc
  exact h (containsSub_head_mem (by simpa using hc))

/-- `noDSlash l` holds when `l` has no two adjacent `'/'` characters. -/
def noDSlash : Str → Bool
  | [] => true
  | [_] => true
  | a :: b :: t => !(a = '/' && b = '/') && noDSlash (b :: t)

theorem beq_swap_char (x y : Char) : (x == y) = decide (y = x) := by
  by_cases h : y = x
  · subst h; simp
  · have hxy : ¬x = y := fun e => h e.symm
    simp [h, hxy]

theorem containsSub_dslash_eq (l : Str) :
    containsSub ['/', '/'] l = !noDSlash l := by
  induction l with
  | nil => rfl
  | cons a t ih =>
    cases t with
    | nil =>
      simp [containsSub, noDSlash, List.isPrefixOf]
    | cons b t2 =>
      have e1 : containsSub ['/', '/'] (a :: b :: t2) =
          ((['/', '/'] : Str).isPrefixOf (a :: b :: t2) ||
            containsSub ['/', '/'] (b :: t2)) := rfl
      have hpre : (['/', '/'] : Str).isPrefixOf (a :: b :: t2) =
          (decide (a = '/') && decide (b = '/')) := by
        simp [List.isPrefixOf, beq_swap_char]
      have e2 : noDSlash (a :: b :: t2) =
          (!(decide (a = '/') && decide (b = '/')) && noDSlash (b :: t2)) := rfl
      rw [e1, hpre, e2, ih]
      cases h1 : decide (a = '/') <;> cases h2 : decide (b = '/') <;>
        cases hx : noDSlash (b :: t2) <;> simp

theorem noDSlash_cons_cons (a b : Char) (t : Str) :
    noDSlash (a :: b :: t) =
      (!(decide (a = '/') && decide (b = '/')) && noDSlash (b :: t)) := rfl

theorem noDSlash_of_not_mem {l : Str} (h : '/' ∉ l) : noDSlash l = true := by
  induction l with
  | nil => rfl
  | cons a t ih =>
    simp only [List.mem_cons, not_or] at h
    cases t with
    | nil => rfl
    | cons b t2 =>
      have hda : decide (a = '/') = false :=
        decide_eq_false (fun ha => h.1 ha.symm)
      rw [noDSlash_cons_cons, hda]
      simpa using ih h.2

theorem noDSlash_append_left {a b : Str} (ha : '/' ∉ a)
    (hb : noDSlash b = true) : noDSlash (a ++ b) = true := by
  induction a with
  | nil => simpa using hb
  | cons c t ih =>
    simp only [List.mem_cons, not_or] at ha
    have htail : noDSlash (t ++ b) = true := ih ha.2
    have hdc : decide (c = '/') = false :=
      decide_eq_false (fun hc => ha.1 hc.symm)
    rw [List.cons_append]
    cases he : t ++ b with
    | nil => rfl
    | cons d r =>
      rw [noDSlash_cons_cons, hdc]
      rw [he] at htail
      simpa using htail

theorem noDSlash_append {a b : Str} (ha : noDSlash a = true)
    (hb : noDSlash b = true) (hbd : b.head? ≠ some '/') :
    noDSlash (a ++ b) = true := by
  induction a with
  | nil => simpa using hb
  | cons c t ih =>
    cases t with
    | nil =>
      cases b with
      | nil => rfl
      | cons d r =>
        have hdd : decide (d = '/') = false := by
          refine decide_eq_false (fun hd => ?_)
          simp only [List.head?] at hbd
          exact hbd (by rw [hd])
        rw [List.singleton_append, noDSlash_cons_cons, hdd]
        simpa using hb
    | cons c2 t2 =>
      rw [noDSlash_cons_cons, Bool.and_eq_true] at ha
      have htail := ih ha.2
      rw [List.cons_append, List.cons_append, noDSlash_cons_cons, ha.1]
      simpa using htail

theorem splitSubGo_of_not_contains {pat : Str} (_hp : pat ≠ []) :
    ∀ (n : Nat) (l : Str), l.length ≤ n → containsSub pat l = false →
      splitSubGo pat n l = [l] := by
  intro n
  induction n with
  | zero => intro l _ _; rfl
  | succ n ih =>
    intro l hlen hc
    cases l with
    | nil => rfl
    | cons c t =>
      simp only [containsSub, Bool.or_eq_false_iff] at hc
      simp only [splitSubGo, hc.1]
      rw [ih t (by simpa using Nat.le_of_succ_le_succ hlen) hc.2]
      simp

theorem splitSubGo_cons_of_pref {pat : Str} {c : Char} {t : Str} (n : Nat)
    (h : pat.isPrefixOf (c :: t) = true) :
    splitSubGo pat (n + 1) (c :: t) = [] :: splitSubGo pat n ((c :: t).drop pat.length) := by
  simp [splitSubGo, h]

theorem splitSub_pat_append {pat m : Str} (hp : pat ≠ [])
    (hm : containsSub pat m = false) : splitSub pat (pat ++ m) = [[], m] := by
  have hpos : 0 < pat.length := List.length_pos.mpr hp
  simp only [splitSub, if_neg hp]
  have hpre : pat.isPrefixOf (pat ++ m) = true := by
    rw [List.isPrefixOf_iff_prefix]
    exact List.prefix_append pat m
  have hdrop : (pat ++ m).drop pat.length = m := List.drop_left pat m
  cases hpat : pat with
  | nil => exact absurd hpat hp
  | cons p0 pt =>
    rw [← hpat]
    have hshape : pat ++ m = p0 :: (pt ++ m) := by rw [hpat]; rfl
    have hlen : (pat ++ m).length = (pat.length + m.length - 1) + 1 := by
      simp only [List.length_append]
      omega
    rw [hlen, hshape, splitSubGo_cons_of_pref _ (by rw [← hshape]; exact hpre),
      ← hshape, hdrop,
      splitSubGo_of_not_contains hp _ m (by omega) hm]

/-! ## The reference grammar recognizers

`src/image/docker/reference/parser/mod.rs` composes anchored regular
expressions.  Each recognizer below is a decidable predicate accepting
exactly the language of the corresponding (anchored) expression.  The
character classes are the regex classes; since the `regex` crate is used
on the byte/char level and every class involved is ASCII, `Char`
comparisons coincide with the source semantics. -/

/-- `[a-z0-9]` — `LOWER_ALNUM_RE`'s class. -/
def isLowAlnum (c : Char) : Bool :=
  ('a' ≤ c && c ≤ 'z') || ('0' ≤ c && c ≤ '9')

/-- `[a-zA-Z0-9]` (also `[[:alnum:]]`). -/
def isAlnumC (c : Char) : Bool :=
  ('a' ≤ c && c ≤ 'z') || ('A' ≤ c && c ≤ 'Z') || ('0' ≤ c && c ≤ '9')

/-- `(?-u:\w)` = `[0-9A-Za-z_]` — first class of `TAG_RE`. -/
def isWordC (c : Char) : Bool := isAlnumC c || c = '_'

/-- `[\w.-]` — repeated class of `TAG_RE`. -/
def isTagRestC (c : Char) : Bool := isWordC c || c = '.' || c = '-'

/-- `[a-zA-Z0-9-]` — middle class of `DOMAIN_COMPONENT_RE`. -/
def isDomC (c : Char) : Bool := isAlnumC c || c = '-'

/-- `[0-9]` — `PORT_NO_RE`'s class (`\d`, ASCII fragment). -/
def isDigitC (c : Char) : Bool := '0' ≤ c && c ≤ '9'

/-- `[[:xdigit:]]` — `DIGEST_HEX_RE`'s class. -/
def isHexDigC (c : Char) : Bool :=
  ('0' ≤ c && c ≤ '9') || ('a' ≤ c && c ≤ 'f') || ('A' ≤ c && c ≤ 'F')

/-- `[+.-_]` — `DIGEST_ALGO_SEP_RE`'s class.  Note that `.-_` inside a
class is the *range* U+002E..U+005F (which contains `/`, `:`, `@`, the
digits and the uppercase letters), not the three characters `.`, `-`,
`_`; the embedding keeps the range faithfully. -/
def isAlgoSepC (c : Char) : Bool := c = '+' || ('.' ≤ c && c ≤ '_')

/-- `[a-z0-9_.-]` — every character that can occur in a path component
(`LOWER_ALNUM_RE` plus the separator characters of `SEPERATOR_RE`). -/
def isPcChar (c : Char) : Bool :=
  isLowAlnum c || c = '_' || c = '.' || c = '-'

/-- `DOMAIN_COMPONENT_RE = (?:[a-zA-Z0-9]|[a-zA-Z0-9][a-zA-Z0-9-]*[a-zA-Z0-9])`:
nonempty over `[a-zA-Z0-9-]`, first and last characters alphanumeric. -/
def matchesDomComp : Str → Bool
  | [] => false
  | c :: t =>
    isAlnumC c && (c :: t).all isDomC && isAlnumC ((c :: t).getLastD ' ')

/-- `DOMAIN_COMPONENT_RE (?:(?:\. DOMAIN_COMPONENT_RE)+)?` — the
domain-components part of `DOMAIN_RE`.  Since `.` cannot occur inside a
component, the anchored match is exactly: every chunk between dots is a
component. -/
def matchesDotComps (d : Str) : Bool :=
  (d.splitOn '.').all matchesDomComp

/-- `DOMAIN_RE = dot-components (?:(?:\:\d+))?`.  `:` cannot occur in a
component, so an anchored match has either no colon, or exactly one with
a nonempty digit string after it. -/
def matchesDomain (l : Str) : Bool :=
  match l.splitOn ':' with
  | [d] => matchesDotComps d
  | [d, p] => matchesDotComps d && !p.isEmpty && p.all isDigitC
  | _ => false

/-- DFA states for `PATH_COMPONENT_RE`.  The language is
`[a-z0-9]+ (?:(?:(?:[_.]|__|[-]*)[a-z0-9]+)+)?`: alphanumeric runs glued
by a single separator token `_`, `__`, `.` or a (possibly empty) run of
`-`.  Equivalently: between two alphanumeric runs the maximal separator
run is `_`, `__`, `.` or `-`*, which the DFA below recognizes.  States:
`start` (nothing read), `qa` (inside an alphanumeric run), `q1`/`q2`
(read one/two `_`), `qd` (read `.`), `qh` (inside a `-` run), `rj`
(reject). -/
inductive PCState where
  | start | qa | q1 | q2 | qd | qh | rj
  deriving DecidableEq, Repr

/-- Transition function of the `PATH_COMPONENT_RE` DFA. -/
def pcStep : PCState → Char → PCState
  | .start, c => if isLowAlnum c then .qa else .rj
  | .qa, c =>
    if isLowAlnum c then .qa
    else if c = '_' then .q1
    else if c = '.' then .qd
    else if c = '-' then .qh
    else .rj
  | .q1, c => if isLowAlnum c then .qa else if c = '_' then .q2 else .rj
  | .q2, c => if isLowAlnum c then .qa else .rj
  | .qd, c => if isLowAlnum c then .qa else .rj
  | .qh, c => if isLowAlnum c then .qa else if c = '-' then .qh else .rj
  | .rj, _ => .rj

/-- `PATH_COMPONENT_RE`, via the DFA (accepting state: `qa`, i.e. the
string ends inside an alphanumeric run). -/
def matchesPathComp (l : Str) : Bool :=
  decide (l.foldl pcStep PCState.start = PCState.qa)

/-- The path part of `NAME_RE`:
`PATH_COMPONENT_RE (?:(?:/ PATH_COMPONENT_RE)+)?`.  `/` cannot occur in
a component, so an anchored match is exactly: every chunk between
slashes is a path component. -/
def matchesPath (p : Str) : Bool :=
  (p.splitOn '/').all matchesPathComp

/-- `TAG_RE = (?-u:[\w][\w.-]{0,127})`. -/
def matchesTag : Str → Bool
  | [] => false
  | c :: t => isWordC c && decide (t.length ≤ 127) && t.all isTagRestC

/-- Helper for `matchesAlgo`: no two adjacent non-alphanumeric
characters. -/
def noAdjNonAlnum : Str → Bool
  | [] => true
  | [_] => true
  | a :: b :: t => !(!isAlnumC a && !isAlnumC b) && noAdjNonAlnum (b :: t)

/-- `DIGEST_ALGO_RE = comp (?:(?:sep comp)+)?` with `comp = [[:alnum:]]+`
and `sep` the class `[+.-_]`.  A string matches iff it is nonempty, its
first and last characters are alphanumeric, every character is in
`comp ∪ sep`, and no two adjacent characters are both non-alphanumeric
(each non-alphanum character is a separator and must be surrounded by
the nonempty alphanumeric component runs; a separator character that
happens to be alphanumeric can always be absorbed into a component). -/
def matchesAlgo : Str → Bool
  | [] => false
  | c :: t =>
    isAlnumC c && isAlnumC ((c :: t).getLastD ' ') &&
      (c :: t).all (fun x => isAlnumC x || isAlgoSepC x) &&
      noAdjNonAlnum (c :: t)

/-- All decompositions `v = a ++ ':' :: h`. -/
def colonSplits : Str → List (Str × Str)
  | [] => []
  | c :: t =>
    (if c = ':' then [(([] : Str), t)] else []) ++
      (colonSplits t).map (fun p => (c :: p.1, p.2))

/-- `DIGEST_RE = DIGEST_ALGO_RE : [[:xdigit:]]{32,}` (anchored at the
end when used inside `REFERENCE_RE`).  A backtracking match exists iff
some colon splits the string into an algorithm part and a hex part of
length ≥ 32 running to the end. -/
def matchesDigestStr (v : Str) : Bool :=
  (colonSplits v).any fun p =>
    matchesAlgo p.1 && decide (32 ≤ p.2.length) && p.2.all isHexDigC

/-- `NAME_RE = (?:DOMAIN_RE /)? PATH`.  The optional domain, when
present, must be followed by `/`, and `DOMAIN_RE` cannot match `/`, so
it extends exactly to the first slash. -/
def matchesName (u : Str) : Bool :=
  matchesPath u ||
    (match splitFirst '/' u with
     | some (d, rest) => matchesDomain d && matchesPath rest
     | none => false)

/-- Captures of `ANCHORED_REFERENCE_RE` (group 1 = name, group 2 = tag,
group 3 = digest; `none` = group did not participate). -/
structure RefCaps where
  name : Str
  tag : Option Str
  digest : Option Str
  deriving DecidableEq, Repr

/-- The `name (?::(tag))?` part of `REFERENCE_RE`, on the substring
before the digest.  `TAG_RE` matches neither `:` nor `/`, and a `:`
inside `NAME_RE` (a port) is always eventually followed by `/`; hence in
an anchored match either the whole string is the name (which the greedy
name group prefers), or the string splits at its *last* colon into
name and tag. -/
def nameTagCaptures (u : Str) : Option (Str × Option Str) :=
  if matchesName u then some (u, none)
  else
    match splitLast ':' u with
    | some (a, b) =>
      if matchesTag b && matchesName a then some (a, some b) else none
    | none => none

/-- Captures of `ANCHORED_REFERENCE_RE = ^(name)(?::(tag))?(?:@(digest))?$`.
Neither `NAME_RE` nor `TAG_RE` can match `@`, so the literal `@` of the
digest group, if the group participates, is the *first* `@` of the
input; everything after it is the digest capture (whose own language may
contain further `@` through the `[+.-_]` separator range). -/
def refCaptures (s : Str) : Option RefCaps :=
  match splitFirst '@' s with
  | none =>
    match nameTagCaptures s with
    | some (n, t) => some ⟨n, t, none⟩
    | none => none
  | some (u, v) =>
    if matchesDigestStr v then
      match nameTagCaptures u with
      | some (n, t) => some ⟨n, t, some v⟩
      | none => none
    else none

/-- Captures of `ANCHORED_CAPTURING_NAME_RE = ^(?:(domain)/)?(path)$`.
The optional domain group is preferred when it can participate; its
match, when present, extends exactly to the first slash (see
`matchesName`). -/
def capturingName (name : Str) : Option (Option Str × Str) :=
  match splitFirst '/' name with
  | some (d, rest) =>
    if matchesDomain d && matchesPath rest then some (some d, rest)
    else if matchesPath name then some (none, name) else none
  | none => if matchesPath name then some (none, name) else none

/-! ## `src/image/oci/digest/mod.rs` — the `Digest` type -/

/-- `struct Digest { algorithm: String, hex_digest: String }`. -/
structure Digest where
  algorithm : Str
  hex_digest : Str
  deriving DecidableEq, Repr

/-- `enum DigestError` (`CannotParse(String)`, `AlgorithmNotSupported(String)`,
`InvalidDigest`). -/
inductive DigestError where
  | CannotParse (s : Str)
  | AlgorithmNotSupported (s : Str)
  | InvalidDigest
  deriving DecidableEq, Repr

/-- Rust `str::to_lowercase` (ASCII fragment; all algorithm names in
play are ASCII). -/
def strToLower (s : Str) : Str := s.map Char.toLower

namespace Digest

/-- `Digest::new_from_str`: split on `:`; exactly two tokens yield a
digest (no validation of the parts), anything else yields `None`. -/
def new_from_str (s : Str) : Option Digest :=
  match s.splitOn ':' with
  | [a, h] => some ⟨a, h⟩
  | _ => none

/-- `impl FromStr for Digest` — `from_str`: split on `:`; exactly two
tokens succeed (again with no validation of the parts), anything else is
`CannotParse`. -/
def from_str (s : Str) : Except DigestError Digest :=
  match s.splitOn ':' with
  | [a, h] => .ok ⟨a, h⟩
  | _ => .error (.CannotParse s)

/-- `Digest::digester`: only `sha256` (case-insensitively) is supported;
the boxed hasher itself is abstracted to `Unit`. -/
def digester (d : Digest) : Except DigestError Unit :=
  if strToLower d.algorithm = "sha256".data then .ok ()
  else .error (.AlgorithmNotSupported d.algorithm)

/-- `impl Display for Digest` — `"{algorithm}:{hex_digest}"`. -/
def toStr (d : Digest) : Str := d.algorithm ++ ':' :: d.hex_digest

/-- `Digest::verify(reader)`: drains the stream into `digester()`
(`digester` is `unwrap`ped — `.panic` when the algorithm is
unsupported), hex-encodes the final state and compares with
`hex_digest`.  The composite `hex::encode ∘ hash` is abstracted as the
parameter `H`; `bytes` is the fully drained stream contents. -/
def verify (H : List Nat → Str) (d : Digest) (bytes : List Nat) :
    PRes Empty Bool :=
  match digester d with
  | .error _ => .panic
  | .ok _ => .ok (decide (H bytes = d.hex_digest))

end Digest

/-! ## `src/image/docker/reference` — errors, types and `parse` -/

/-- `ReferenceError` as used by `api.rs` (the checked-in `errors.rs`
spells the variants with an `Error` suffix; the constructors used by
`parse` are these four). -/
inductive ReferenceError where
  | EmptyName
  | InvalidFormat
  | NameNotCanonical
  | NameTooLong
  deriving DecidableEq, Repr

/-- `struct DockerRepo { domain: String, path: String }`. -/
structure DockerRepo where
  domain : Str
  path : Str
  deriving DecidableEq, Repr

/-- `struct DockerReference { repo, tag, digest, input_ref }`. -/
structure DockerReference where
  repo : DockerRepo
  tag : Str
  digest : Option Digest
  input_ref : Str
  deriving DecidableEq, Repr

/-- `DEFAULT_DOCKER_DOMAIN`. -/
def DEFAULT_DOCKER_DOMAIN : Str := "docker.io".data

/-- `api.rs::get_domain_name`: if the input has a `/` and the part
before the first `/` contains neither `.` nor `:` and is not
`localhost`, prepend `docker.io/`. -/
def get_domain_name (input : Str) : Str :=
  match splitFirst '/' input with
  | none => input
  | some (maybe_domain, _) =>
    if maybe_domain.any (fun c => c = '.' || c = ':') then input
    else if maybe_domain = "localhost".data then input
    else DEFAULT_DOCKER_DOMAIN ++ '/' :: input

/-- `api.rs::parse`.  Follows the source line by line:

* empty input → `EmptyName`;
* apply `get_domain_name`;
* run `ANCHORED_REFERENCE_RE`; no match → `InvalidFormat` (the
  `c.len() != 4` guard is vacuous: the regex always exposes exactly
  three capture groups);
* `name` = group 1 (empty → `EmptyName`), `tag` = group 2 with `""` for
  a non-participating group, and — as in the source's line
  `digest = c.get(2).map_or("", |m| m.as_str())` — the *digest string is
  also read from group 2* (the tag group), not from group 3;
* run `ANCHORED_CAPTURING_NAME_RE` on the name; no match →
  `NameNotCanonical`; empty domain → `docker.io`; path without `/` on
  the default domain → prepend `library/`; path longer than 256 →
  `NameTooLong`; empty tag → `latest`;
* the digest field is `Digest::new_from_str` of the digest string. -/
def resolve_domain (domOpt : Option Str) : Str :=
  if domOpt.getD [] = [] then DEFAULT_DOCKER_DOMAIN else domOpt.getD []

/-- The `library/` defaulting block of `parse`: a path without `/` on
the default domain gets the `library/` name prefixed. -/
def resolve_path (domain path0 : Str) : Str :=
  if ¬ '/' ∈ path0 ∧ domain = DEFAULT_DOCKER_DOMAIN
  then "library/".data ++ path0
  else path0

/-- The tag defaulting block of `parse`: an empty tag becomes
`latest`. -/
def resolve_tag (tag : Str) : Str :=
  if tag = [] then "latest".data else tag

def parse (input_ref : Str) : Except ReferenceError DockerReference :=
  if input_ref = [] then .error .EmptyName
  else
    let input := get_domain_name input_ref
    match refCaptures input with
    | none => .error .InvalidFormat
    | some c =>
      if c.name = [] then .error .EmptyName
      else
        match capturingName c.name with
        | none => .error .NameNotCanonical
        | some (domOpt, path0) =>
          let domain := resolve_domain domOpt
          let path_name := resolve_path domain path0
          if path_name.length > 256 then .error .NameTooLong
          else
            .ok { repo := { domain := domain, path := path_name },
                  tag := resolve_tag (c.tag.getD []),
                  digest := Digest.new_from_str (c.tag.getD []),
                  input_ref := input }

/-- `types.rs::DockerReference::get_string_within_transport`:
`"//{domain}/{path}"`, then `":{tag}"` when the tag is nonempty, then
`"@{digest}"` when a digest is present. -/
def get_string_within_transport (r : DockerReference) : Str :=
  '/' :: '/' :: r.repo.domain ++ '/' :: r.repo.path ++
    (if r.tag = [] then [] else ':' :: r.tag) ++
    (match r.digest with
     | some d => '@' :: Digest.toStr d
     | none => [])

/-- `DockerImageReference::name` — `"{domain}/{path}"`. -/
def DockerReference.name (r : DockerReference) : Str :=
  r.repo.domain ++ '/' :: r.repo.path

/-! ## `src/image/docker/transport.rs` and `src/image/transports.rs` -/

/-- Opaque image-level error (`ImageError` has only an optional boxed
cause, which no caller inspects; the embedding drops the payload). -/
inductive ImageError where
  | new
  deriving DecidableEq, Repr

/-- `DockerTransport::parse_reference`: require a `//`, split on `//`
(exactly two pieces), and parse the second piece. -/
def docker_parse_reference (reference : Str) :
    Except ImageError DockerReference :=
  if containsSub ('/' :: '/' :: []) reference = false then .error .new
  else
    match splitSub ('/' :: '/' :: []) reference with
    | [_, ref_reference] =>
      match parse ref_reference with
      | .ok r => .ok r
      | .error _ => .error .new
    | _ => .error .new

/-- The transport map after `init_transports()`: only the `docker`
transport is registered. -/
def ALL_TRANSPORTS_MAP : List Str := ["docker".data]

/-- `transports.rs::parse_image_name`: split at the first `:`
(`splitn(2, ':')`); a missing `:` is an error; then the transport is
looked up in the map and **`unwrap`ped** — an unregistered transport
name panics.  For the sole registered transport the reference part is
parsed by `DockerTransport::parse_reference`. -/
def parse_image_name (image_name : Str) :
    PRes ImageError DockerReference :=
  match splitN2 ':' image_name with
  | [transport_name, reference_part] =>
    if ALL_TRANSPORTS_MAP.contains transport_name then
      match docker_parse_reference reference_part with
      | .ok r => .ok r
      | .error e => .err e
    else .panic
  | _ => .err .new

/-- `transports.rs::transport_from_image_name`: split on `:` (all
occurrences); exactly two tokens required; a missing transport yields
`None` instead of panicking. -/
def transport_from_image_name (image_name : Str) : Option Str :=
  match image_name.splitOn ':' with
  | [transport_name, _] =>
    if ALL_TRANSPORTS_MAP.contains transport_name then some transport_name
    else none
  | _ => none

/-! ## Media types (`src/image/docker/mod.rs`, `src/image/oci/spec_v1/mod.rs`) -/

def MEDIA_TYPE_DOCKER_V2_SCHEMA2_MANIFEST : Str :=
  "application/vnd.docker.distribution.manifest.v2+json".data

def MEDIA_TYPE_DOCKER_V2_LIST : Str :=
  "application/vnd.docker.distribution.manifest.list.v2+json".data

def MEDIA_TYPE_IMAGE_MANIFEST : Str :=
  "application/vnd.oci.image.manifest.v1+json".data

def MEDIA_TYPE_IMAGE_INDEX : Str :=
  "application/vnd.oci.image.index.v1+json".data

/-! ## `src/image/platform.rs` — platform normalization -/

/-- OCI image-spec v1 `Platform` (`src/image/oci/spec_v1/mod.rs`). -/
structure Platform where
  architecture : Str
  os : Str
  variant : Option Str
  os_version : Option Str
  os_features : Option (List Str)
  deriving DecidableEq, Repr

/-- `platform.rs::get_os_platform`, with `std::env::consts::OS` and
`std::env::consts::ARCH` supplied as parameters (they are compile-time
constants of the host). -/
def get_os_platform (os_const arch_const : Str) : Platform :=
  let architecture :=
    if arch_const = "x86_64".data then "amd64".data
    else if arch_const = "arm".data then "arm".data
    else if arch_const = "aarch64".data then "arm64".data
    else arch_const
  let variant :=
    if architecture = "arm64".data then some "v8".data
    else if architecture = "arm".data then some "v7".data
    else none
  { architecture := architecture, os := os_const, variant := variant,
    os_version := none, os_features := none }

/-! ## `src/image/docker/manifest/schema2.rs` — list types (fields used
by the resolver) -/

/-- `Schema2PlatformSpec`. -/
structure Schema2PlatformSpec where
  architecture : Option Str
  os : Str
  os_version : Option Str
  os_features : Option Str
  variant : Option Str
  features : Option Str
  deriving DecidableEq, Repr

/-- `Schema2ManifestDescriptor`. -/
structure Schema2ManifestDescriptor where
  media_type : Str
  size : Int
  digest : Digest
  platform : Schema2PlatformSpec
  deriving DecidableEq, Repr

/-- `Schema2List`. -/
structure Schema2List where
  schema_version : Int
  media_type : Str
  manifests : List Schema2ManifestDescriptor
  deriving DecidableEq, Repr

/-- `types::ImageManifest { manifest: Vec<u8>, mime_type: String }`;
bytes are embedded as `List Nat`. -/
structure ImageManifest where
  manifest : List Nat
  mime_type : Str
  deriving DecidableEq, Repr

/-! ## `src/image/docker/image.rs` — the manifest/index resolver -/

/-- The `for m in list.manifests` loop of `manifest_for_our_os_arch`:
for each entry the source evaluates `architecture.unwrap()` (panicking
when the entry carries no architecture) and compares
`(architecture, os)` against the current platform; the first match is
re-fetched by digest through the image source (`get_manifest`,
abstracted as a parameter); an exhausted list is an `ImageError`. -/
def find_platform_manifest (platform : Platform)
    (getManifest : Digest → Except ImageError ImageManifest) :
    List Schema2ManifestDescriptor → PRes ImageError ImageManifest
  | [] => .err .new
  | m :: rest =>
    match m.platform.architecture with
    | none => .panic
    | some arch =>
      if platform.architecture = arch && platform.os = m.platform.os then
        match getManifest m.digest with
        | .ok mf => .ok mf
        | .error e => .err e
      else find_platform_manifest platform getManifest rest

/-- `DockerImage::manifest_for_our_os_arch`.  `parseList` abstracts
`serde_json::from_slice::<Schema2List>`, `getManifest` abstracts
`self.source.get_manifest(Some(digest))`, and `platform` is the value
of `get_os_platform()` on the host. -/
def manifest_for_our_os_arch (platform : Platform)
    (parseList : List Nat → Except ImageError Schema2List)
    (getManifest : Digest → Except ImageError ImageManifest)
    (original : ImageManifest) : PRes ImageError ImageManifest :=
  if original.mime_type = MEDIA_TYPE_DOCKER_V2_SCHEMA2_MANIFEST then
    .ok original
  else if original.mime_type = MEDIA_TYPE_DOCKER_V2_LIST then
    match parseList original.manifest with
    | .error e => .err e
    | .ok list => find_platform_manifest platform getManifest list.manifests
  else .err .new

/-! ## `src/image/manifest/mod.rs` and `src/image/docker/client.rs` -/

/-- `DEFAULT_SUPPORTED_MANIFESTS`, in source order. -/
def DEFAULT_SUPPORTED_MANIFESTS : List Str :=
  [MEDIA_TYPE_DOCKER_V2_SCHEMA2_MANIFEST,
   MEDIA_TYPE_DOCKER_V2_LIST,
   MEDIA_TYPE_IMAGE_INDEX,
   MEDIA_TYPE_IMAGE_MANIFEST]

/-- `client.rs::do_get_manifest`'s
`DEFAULT_SUPPORTED_MANIFESTS.join(", ")`. -/
def accept_header_value : Str :=
  List.intercalate ", ".data DEFAULT_SUPPORTED_MANIFESTS

/-- Opaque client error (`ClientError(String)`; the message is never
inspected). -/
inductive ClientError where
  | mk
  deriving DecidableEq, Repr

/-- The observable parts of an outgoing request built by
`do_get_manifest`. -/
structure HttpRequest where
  url : Str
  accept : Option Str
  authorization : Option Str
  deriving DecidableEq, Repr

/-- The observable parts of an HTTP response. -/
structure HttpResponse where
  content_type : Option Str
  body : List Nat
  deriving DecidableEq, Repr

/-- `format!("{}v2/{}/manifests/{}", repo_url, path, digest_or_tag)`. -/
def manifest_url (repo_url path digest_or_tag : Str) : Str :=
  repo_url ++ "v2/".data ++ path ++ "/manifests/".data ++ digest_or_tag

/-- The request `do_get_manifest` sends: `Accept` is the joined
supported-manifest list; `Authorization: Bearer <token>` is attached
when the client's `auth_required` flag is set (the preceding
`get_bearer_token_for_path_scope` call and its lock discipline are
abstracted into the `auth_required`/`token` parameters). -/
def mk_manifest_request (auth_required : Bool) (token : Str)
    (repo_url path digest_or_tag : Str) : HttpRequest :=
  { url := manifest_url repo_url path digest_or_tag,
    accept := some accept_header_value,
    authorization :=
      if auth_required then some ("Bearer ".data ++ token) else none }

/-- `client.rs::do_get_manifest`: build the request, perform it
(`perform_http_request`, abstracted as `performRequest`), then read the
echoed `Content-Type` (`unwrap` — a response without it panics) and
return it as the manifest's authoritative mime type together with the
body bytes. -/
def do_get_manifest
    (performRequest : HttpRequest → Except ClientError HttpResponse)
    (auth_required : Bool) (token : Str)
    (repo_url path digest_or_tag : Str) : PRes ClientError ImageManifest :=
  match performRequest
      (mk_manifest_request auth_required token repo_url path digest_or_tag) with
  | .error e => .err e
  | .ok resp =>
    match resp.content_type with
    | none => .panic
    | some mt => .ok { manifest := resp.body, mime_type := mt }

/-! ## `src/image/api/pull.rs` — layer download and pull orchestration -/

/-- `OCIImageLayout::write_blob_file` materializes the blob under
`blobs/<algorithm>/<hex_digest>`; the layout's blob directory is
modeled as the list of written `(digest, bytes)` pairs. -/
def write_blob_file (blobs : List (Digest × List Nat)) (d : Digest)
    (bytes : List Nat) : List (Digest × List Nat) :=
  blobs ++ [(d, bytes)]

/-- `pull.rs::do_download_image_layer`.  `get_blob` abstracts
`img_source.get_blob` (the registry fetch, which itself verifies the
*compressed* digest), `gunzip` abstracts the `GzipDecoder` stream, and
`H` abstracts hex-encoded hashing as in `Digest.verify`.  The source:
fetch the blob, verify the gzip-decompressed bytes against the
`diff_id` digest; on success fetch again and write the blob file; on
mismatch it only logs (`log::error!`) and **falls through to
`Ok(())`**. -/
def do_download_image_layer (H : List Nat → Str)
    (gunzip : List Nat → List Nat)
    (get_blob : Digest → Except ImageError (List Nat))
    (layout_blobs : List (Digest × List Nat))
    (layer_digest unzipped_digest : Digest) :
    PRes ImageError (List (Digest × List Nat)) :=
  match get_blob layer_digest with
  | .error e => .err e
  | .ok bytes =>
    match Digest.verify H unzipped_digest (gunzip bytes) with
    | .panic => .panic
    | .err e => e.elim
    | .ok unzipped_verify =>
      if unzipped_verify then
        match get_blob layer_digest with
        | .error e => .err e
        | .ok bytes2 => .ok (write_blob_file layout_blobs layer_digest bytes2)
      else .ok layout_blobs

/-- The on-disk layout state the layer phase of `perform_image_pull`
manipulates: the blob files plus whether `index.json` and the
`oci-layout` file have been written. -/
structure PullLayoutState where
  blobs : List (Digest × List Nat)
  index_written : Bool
  layout_file_written : Bool
  deriving DecidableEq, Repr

/-- The layer fan-out of `perform_image_pull` (lines 157–179): one task
per `(layer.digest, diff_id)` pair, at most three in flight
(semaphore); each task writes to a distinct per-digest blob file, so
running them in sequence is an equivalent serialization.  `h.await?`
propagates the first task failure. -/
def download_layers (H : List Nat → Str) (gunzip : List Nat → List Nat)
    (get_blob : Digest → Except ImageError (List Nat))
    (blobs : List (Digest × List Nat)) :
    List (Digest × Digest) → PRes ImageError (List (Digest × List Nat))
  | [] => .ok blobs
  | (layer, unzipped) :: rest =>
    match do_download_image_layer H gunzip get_blob blobs layer unzipped with
    | .ok blobs2 => download_layers H gunzip get_blob blobs2 rest
    | .err e => .err e
    | .panic => .panic

/-- Lines 157–189 of `perform_image_pull`: run all layer tasks, then
(`write_index_json`, `write_image_layout`) — reached only when every
`await` returned `Ok`. -/
def perform_image_pull_layers (H : List Nat → Str)
    (gunzip : List Nat → List Nat)
    (get_blob : Digest → Except ImageError (List Nat))
    (layout : PullLayoutState) (pairs : List (Digest × Digest)) :
    PRes ImageError PullLayoutState :=
  match download_layers H gunzip get_blob layout.blobs pairs with
  | .err e => .err e
  | .panic => .panic
  | .ok blobs2 =>
    .ok { blobs := blobs2, index_written := true, layout_file_written := true }

/-! ## `pull.rs::pull_container_image` — the precondition check -/

/-- The error kinds `pull_container_image` surfaces (`io::Error` values;
only the kind matters to the claims). -/
inductive PullError where
  | invalidInput
  | alreadyExists
  | other
  deriving DecidableEq, Repr

/-- Filesystem side effects of the pull orchestration, in order. -/
inductive FsEffect where
  | deleteFsPath
  | createFsPath
  | pullEffect (n : Nat)
  deriving DecidableEq, Repr

/-- `pull.rs::pull_container_image`, up to and including the dispatch
into `perform_image_pull` (whose behavior — result plus its own ordered
side effects — is the abstract parameter `performPull`).  The reference
is parsed (`parse_image_name`; a `DockerReference` always yields a
`docker_reference()`), the layout value is constructed (pure — `new`
touches no file), and then: an existing layout path without `force` is
an `InvalidInput` error *before any filesystem effect*; with `force` it
is deleted first.  After `create_fs_path`, a pull failure triggers
`delete_fs_path` when `clean_on_err` is set. -/
def pull_container_image (performPull : PRes PullError Unit × List FsEffect)
    (fs_exists : Bool) (image_name : Str) (force clean_on_err : Bool) :
    PRes PullError Unit × List FsEffect :=
  match parse_image_name image_name with
  | .panic => (.panic, [])
  | .err _ => ((.err .invalidInput), [])
  | .ok _ =>
    if fs_exists && !force then ((.err .alreadyExists), [])
    else
      let pre : List FsEffect :=
        if fs_exists then [.deleteFsPath, .createFsPath] else [.createFsPath]
      match performPull with
      | (.ok _, effs) => (.ok (), pre ++ effs)
      | (.err e, effs) =>
        if clean_on_err then ((.err e), pre ++ effs ++ [.deleteFsPath])
        else ((.err e), pre ++ effs)
      | (.panic, effs) => (.panic, pre ++ effs)

/-! ## `src/storage/overlay.rs` — apply-layer and whiteouts -/

/-- `WHITEOUT_PREFIX = ".wh."`. -/
def whiteoutMarker : Str := ".wh.".data

/-- `WHITEOUT_OPAQUE = ".wh..wh..opq"`. -/
def whiteoutOpaque : Str := ".wh..wh..opq".data

/-- Last path component (Rust `Path::components().next_back()`;
`Path::ends_with` with a single-component suffix compares exactly this
component). -/
def lastComponent (p : Str) : Str := (p.splitOn '/').getLastD []

/-- The path with its last component removed
(`components.next_back(); components.as_path()`). -/
def parentPath (p : Str) : Str :=
  List.intercalate ['/'] (p.splitOn '/').dropLast

/-- What `apply_layer` does with one tar entry, relative to the `diff/`
directory. -/
inductive OverlayAction where
  | unpack (p : Str)
  | charDev (p : Str)
  | setOpaque (dir : Str)
  deriving DecidableEq, Repr

/-- `overlay.rs::handle_whiteout`: an entry whose path *ends with* (as a
path component) `.wh..wh..opq` marks its parent directory opaque
(`create_dir_all` + `trusted.overlay.opaque = "y"`); any other entry
reaching this function gets a `char(0,0)` device (`mknod`) at the path
with **every occurrence** of `".wh."` removed
(`str::replace(WHITEOUT_PREFIX, "")`). -/
def handle_whiteout (entry_path : Str) : OverlayAction :=
  if lastComponent entry_path = whiteoutOpaque then
    .setOpaque (parentPath entry_path)
  else .charDev (replaceAll whiteoutMarker entry_path)

/-- The per-entry dispatch of `overlay.rs::apply_layer`: an entry is a
whiteout iff its path string *contains* `".wh."` anywhere
(`path.contains(WHITEOUT_PREFIX)`); otherwise it is unpacked under
`diff/` as-is. -/
def apply_layer_entry (entry_path : Str) : OverlayAction :=
  if containsSub whiteoutMarker entry_path then handle_whiteout entry_path
  else .unpack entry_path

/-- The entry loop of `apply_layer` over a decoded tar. -/
def apply_layer_actions (entries : List Str) : List OverlayAction :=
  entries.map apply_layer_entry

/-! ## Properties of the grammar recognizers -/

theorem foldl_pcStep_rj (l : Str) : l.foldl pcStep PCState.rj = PCState.rj := by
  induction l with
  | nil => rfl
  | cons c t ih => simpa [List.foldl, pcStep] using ih

theorem pcStep_of_not_pc {c : Char} (h : isPcChar c = false) (s : PCState) :
    pcStep s c = PCState.rj := by
  have hla : isLowAlnum c = false := by
    simp only [isPcChar, Bool.or_eq_false_iff] at h
    exact h.1.1.1
  have hu : ¬c = '_' := by
    simp only [isPcChar, Bool.or_eq_false_iff, decide_eq_false_iff_not] at h
    exact h.1.1.2
  have hd : ¬c = '.' := by
    simp only [isPcChar, Bool.or_eq_false_iff, decide_eq_false_iff_not] at h
    exact h.1.2
  have hh : ¬c = '-' := by
    simp only [isPcChar, Bool.or_eq_false_iff, decide_eq_false_iff_not] at h
    exact h.2
  cases s <;> simp [pcStep, hla, hu, hd, hh]

theorem matchesPathComp_chars {l : Str} (h : matchesPathComp l = true) :
    ∀ c ∈ l, isPcChar c = true := by
  intro c hc
  by_contra hcf
  have hcf2 : isPcChar c = false := by simpa using hcf
  obtain ⟨a, b, rfl⟩ := List.append_of_mem hc
  unfold matchesPathComp at h
  rw [decide_eq_true_iff] at h
  rw [List.foldl_append] at h
  simp only [List.foldl_cons] at h
  rw [pcStep_of_not_pc hcf2, foldl_pcStep_rj] at h
  exact PCState.noConfusion h

theorem matchesPathComp_ne_nil {l : Str} (h : matchesPathComp l = true) :
    l ≠ [] := by
  intro he
  subst he
  simp [matchesPathComp] at h

theorem matchesPath_parts {p : Str} (h : matchesPath p = true) :
    ∀ q ∈ p.splitOn '/', matchesPathComp q = true := by
  intro q hq
  exact List.all_eq_true.mp h q hq

theorem matchesPath_ne_nil {p : Str} (h : matchesPath p = true) : p ≠ [] := by
  intro he
  subst he
  have := matchesPath_parts h [] (by simp [List.splitOn])
  exact matchesPathComp_ne_nil this rfl

/-- Reassemble a list from its `splitOn` chunks. -/
theorem splitOn_reassemble (c : Char) (l : Str) :
    List.intercalate [c] (l.splitOn c) = l :=
  List.intercalate_splitOn l c

theorem intercalate_single (x : Char) (q : Str) :
    List.intercalate [x] [q] = q := by
  simp [List.intercalate]

theorem intercalate_cons2 (x : Char) (q q2 : Str) (rest : List Str) :
    List.intercalate [x] (q :: q2 :: rest) =
      q ++ x :: List.intercalate [x] (q2 :: rest) := by
  simp [List.intercalate, List.intersperse_cons_cons]

theorem mem_intercalate_single {x : Char} {Q : List Str} {c : Char}
    (h : c ∈ List.intercalate [x] Q) : c = x ∨ ∃ q ∈ Q, c ∈ q := by
  induction Q with
  | nil =>
    simp [List.intercalate] at h
  | cons q rest ih =>
    cases rest with
    | nil =>
      rw [intercalate_single] at h
      exact Or.inr ⟨q, by simp, h⟩
    | cons q2 rest2 =>
      rw [intercalate_cons2] at h
      simp only [List.mem_append, List.mem_cons] at h
      rcases h with h | h
      · exact Or.inr ⟨q, by simp, h⟩
      · rcases h with h | h
        · exact Or.inl h
        · rcases ih h with h2 | ⟨q3, hq3, hc3⟩
          · exact Or.inl h2
          · exact Or.inr ⟨q3, by simp [hq3], hc3⟩

theorem matchesPath_chars {p : Str} (h : matchesPath p = true) :
    ∀ c ∈ p, c = '/' ∨ isPcChar c = true := by
  intro c hc
  rw [← splitOn_reassemble '/' p] at hc
  rcases mem_intercalate_single hc with h2 | ⟨q, hq, hcq⟩
  · exact Or.inl h2
  · exact Or.inr (matchesPathComp_chars (matchesPath_parts h q hq) c hcq)

theorem matchesPath_not_mem {p : Str} (h : matchesPath p = true) {c : Char}
    (hc : isPcChar c = false) (hs : c ≠ '/') : c ∉ p := by
  intro hm
  rcases matchesPath_chars h c hm with h2 | h2
  · exact hs h2
  · rw [hc] at h2; exact Bool.false_ne_true h2

theorem matchesTag_ne_nil {t : Str} (h : matchesTag t = true) : t ≠ [] := by
  intro he; subst he; simp [matchesTag] at h

theorem matchesTag_chars {t : Str} (h : matchesTag t = true) :
    ∀ c ∈ t, isTagRestC c = true := by
  cases t with
  | nil => simp
  | cons c0 t0 =>
    simp only [matchesTag, Bool.and_eq_true] at h
    intro c hc
    rcases List.mem_cons.mp hc with rfl | hc2
    · simp only [isTagRestC, Bool.or_eq_true]
      exact Or.inl (Or.inl h.1.1)
    · exact List.all_eq_true.mp h.2 c hc2

theorem matchesTag_not_mem {t : Str} (h : matchesTag t = true) {c : Char}
    (hc : isTagRestC c = false) : c ∉ t := by
  intro hm
  rw [matchesTag_chars h c hm] at hc
  exact Bool.true_eq_false.mp hc

theorem matchesDomComp_chars {d : Str} (h : matchesDomComp d = true) :
    ∀ c ∈ d, isDomC c = true := by
  cases d with
  | nil => simp
  | cons c0 t0 =>
    simp only [matchesDomComp, Bool.and_eq_true] at h
    exact List.all_eq_true.mp h.1.2

theorem matchesDomComp_ne_nil {d : Str} (h : matchesDomComp d = true) :
    d ≠ [] := by
  intro he; subst he; simp [matchesDomComp] at h

theorem matchesDotComps_chars {d : Str} (h : matchesDotComps d = true) :
    ∀ c ∈ d, c = '.' ∨ isDomC c = true := by
  intro c hc
  rw [← splitOn_reassemble '.' d] at hc
  rcases mem_intercalate_single hc with h2 | ⟨q, hq, hcq⟩
  · exact Or.inl h2
  · exact Or.inr (matchesDomComp_chars (List.all_eq_true.mp h q hq) c hcq)

theorem matchesDomain_chars {d : Str} (h : matchesDomain d = true) :
    ∀ c ∈ d, c = '.' ∨ c = ':' ∨ isDomC c = true ∨ isDigitC c = true := by
  intro c hc
  unfold matchesDomain at h
  cases hsp : d.splitOn ':' with
  | nil => rw [hsp] at h; simp at h
  | cons d0 rest =>
    cases rest with
    | nil =>
      rw [hsp] at h
      have hd : d = d0 := by
        have := splitOn_reassemble ':' d
        rw [hsp, intercalate_single] at this
        exact this.symm
      subst hd
      rcases matchesDotComps_chars h c hc with h2 | h2
      · exact Or.inl h2
      · exact Or.inr (Or.inr (Or.inl h2))
    | cons d1 rest2 =>
      cases rest2 with
      | cons _ _ => rw [hsp] at h; simp at h
      | nil =>
        rw [hsp] at h
        simp only [Bool.and_eq_true] at h
        have hd : d = d0 ++ ':' :: d1 := by
          have := splitOn_reassemble ':' d
          rw [hsp, intercalate_cons2, intercalate_single] at this
          exact this.symm
        rw [hd] at hc
        simp only [List.mem_append, List.mem_cons] at hc
        rcases hc with hc | hc | hc
        · rcases matchesDotComps_chars h.1.1 c hc with h2 | h2
          · exact Or.inl h2
          · exact Or.inr (Or.inr (Or.inl h2))
        · exact Or.inr (Or.inl hc)
        · exact Or.inr (Or.inr (Or.inr (List.all_eq_true.mp h.2 c hc)))

theorem matchesDomain_ne_nil {d : Str} (h : matchesDomain d = true) :
    d ≠ [] := by
  intro he
  subst he
  simp [matchesDomain, List.splitOn, List.splitOnP, List.splitOnP.go,
    matchesDotComps, matchesDomComp] at h

theorem matchesDomain_not_mem {d : Str} (h : matchesDomain d = true)
    {c : Char} (hc1 : c ≠ '.') (hc2 : c ≠ ':') (hc3 : isDomC c = false)
    (hc4 : isDigitC c = false) : c ∉ d := by
  intro hm
  rcases matchesDomain_chars h c hm with h2 | h2 | h2 | h2
  · exact hc1 h2
  · exact hc2 h2
  · rw [hc3] at h2; exact Bool.false_ne_true h2
  · rw [hc4] at h2; exact Bool.false_ne_true h2

/-- The chunks of a `matchesPath` path are nonempty and slash-free. -/
theorem matchesPath_parts_shape {p : Str} (h : matchesPath p = true) :
    ∀ q ∈ p.splitOn '/', q ≠ [] ∧ '/' ∉ q := by
  intro q hq
  have hm := matchesPath_parts h q hq
  refine ⟨matchesPathComp_ne_nil hm, ?_⟩
  intro hsl
  have := matchesPathComp_chars hm '/' hsl
  simp [isPcChar, isLowAlnum] at this

theorem head?_intercalate {x : Char} {q : Str} (Q : List Str)
    (hq : q ≠ []) : (List.intercalate [x] (q :: Q)).head? = q.head? := by
  cases Q with
  | nil => rw [intercalate_single]
  | cons q2 rest =>
    rw [intercalate_cons2]
    exact List.head?_append_of_ne_nil _ hq

theorem noDSlash_intercalate (x : Char) {Q : List Str}
    (h : ∀ q ∈ Q, q ≠ [] ∧ '/' ∉ q) :
    noDSlash (List.intercalate [x] Q) = true ∧
      (x = '/' → ∀ c, (List.intercalate [x] Q).head? = some c → c ≠ '/') := by
  induction Q with
  | nil =>
    constructor
    · rfl
    · intro _ c hc; simp [List.intercalate] at hc
  | cons q rest ih =>
    have hq := h q (by simp)
    cases rest with
    | nil =>
      rw [intercalate_single]
      constructor
      · exact noDSlash_of_not_mem hq.2
      · intro _ c hc hcs
        subst hcs
        exact hq.2 (List.mem_of_mem_head? hc)
    | cons q2 rest2 =>
      have ih2 := ih (fun q3 hq3 => h q3 (by simp [hq3]))
      rw [intercalate_cons2]
      have hq2 := h q2 (by simp)
      constructor
      · apply noDSlash_append_left hq.2
        cases hx : decide (x = '/') with
        | true =>
          have hx2 : x = '/' := of_decide_eq_true hx
          cases hh : (List.intercalate [x] (q2 :: rest2)).head? with
          | none =>
            cases hi : List.intercalate [x] (q2 :: rest2) with
            | nil => simp [hi, noDSlash]
            | cons a t => rw [hi] at hh; simp [List.head?] at hh
          | some c =>
            have hcne : c ≠ '/' := ih2.2 hx2 c hh
            cases hi : List.intercalate [x] (q2 :: rest2) with
            | nil => simp [hi, noDSlash]
            | cons a t =>
              rw [hi] at hh
              simp only [List.head?, Option.some.injEq] at hh
              subst hh
              have hd : decide (a = '/') = false := decide_eq_false hcne
              rw [noDSlash_cons_cons, hx2]
              rw [hi] at ih2
              simp [hd, ih2.1]
        | false =>
          have hx2 : ¬x = '/' := of_decide_eq_false hx
          cases hi : List.intercalate [x] (q2 :: rest2) with
          | nil => simp [noDSlash]
          | cons a t =>
            rw [noDSlash_cons_cons]
            have hd : decide (x = '/') = false := decide_eq_false hx2
            rw [hd]
            rw [hi] at ih2
            simp [ih2.1]
      · intro hx c hc hcs
        subst hcs
        rw [List.head?_append_of_ne_nil _ hq.1] at hc
        exact hq.2 (List.mem_of_mem_head? hc)

/-- A `matchesPath` path has no two adjacent slashes and does not start
(or end) with one. -/
theorem matchesPath_noDSlash {p : Str} (h : matchesPath p = true) :
    noDSlash p = true ∧ ∀ c, p.head? = some c → c ≠ '/' := by
  have hsh := matchesPath_parts_shape h
  cases hsp : p.splitOn '/' with
  | nil =>
    exact absurd hsp (List.splitOnP_ne_nil _ _)
  | cons q rest =>
    have hre : List.intercalate ['/'] (q :: rest) = p := by
      rw [← hsp]; exact splitOn_reassemble '/' p
    have hsh2 : ∀ q2 ∈ q :: rest, q2 ≠ [] ∧ '/' ∉ q2 := by
      rw [← hsp]; exact hsh
    have hni := noDSlash_intercalate '/' hsh2
    rw [hre] at hni
    exact ⟨hni.1, fun c hc => hni.2 rfl c hc⟩

theorem splitLast_eq_some {c : Char} {l a b : Str}
    (h : splitLast c l = some (a, b)) : l = a ++ c :: b ∧ c ∉ b := by
  unfold splitLast at h
  cases he : splitFirst c l.reverse with
  | none => rw [he] at h; exact absurd h (by simp)
  | some p =>
    rw [he] at h
    cases p with
    | mk x y =>
      simp only [Option.some.injEq, Prod.mk.injEq] at h
      obtain ⟨ha, hb⟩ := h
      obtain ⟨hrev, hx⟩ := splitFirst_eq_some he
      subst ha hb
      constructor
      · have := congrArg List.reverse hrev
        simpa [List.reverse_append] using this
      · simpa using hx

theorem splitFirst_none_not_mem {c : Char} {l : Str}
    (h : splitFirst c l = none) : c ∉ l := by
  induction l with
  | nil => simp
  | cons a t ih =>
    intro hm
    by_cases hac : a = c
    · unfold splitFirst at h
      rw [if_pos hac] at h
      exact Option.noConfusion h
    · unfold splitFirst at h
      rw [if_neg hac] at h
      cases he : splitFirst c t with
      | some p =>
        rw [he] at h
        cases p with
        | mk x y => exact Option.noConfusion h
      | none =>
        rcases List.mem_cons.mp hm with hmc | hm2
        · exact hac hmc.symm
        · exact ih he hm2

/-- `matchesName` destructor. -/
theorem matchesName_elim {u : Str} (h : matchesName u = true) :
    matchesPath u = true ∨
      ∃ d rest, u = d ++ '/' :: rest ∧ '/' ∉ d ∧
        matchesDomain d = true ∧ matchesPath rest = true := by
  unfold matchesName at h
  rw [Bool.or_eq_true] at h
  rcases h with h | h
  · exact Or.inl h
  · cases he : splitFirst '/' u with
    | none => rw [he] at h; simp at h
    | some p =>
      rw [he] at h
      cases p with
      | mk d rest =>
        rw [Bool.and_eq_true] at h
        obtain ⟨hu, hd⟩ := splitFirst_eq_some he
        exact Or.inr ⟨d, rest, hu, hd, h.1, h.2⟩

/-- `nameTagCaptures` destructor. -/
theorem nameTagCaptures_elim {u n : Str} {topt : Option Str}
    (h : nameTagCaptures u = some (n, topt)) :
    (topt = none ∧ n = u ∧ matchesName u = true) ∨
      ∃ t, topt = some t ∧ u = n ++ ':' :: t ∧ ':' ∉ t ∧
        matchesTag t = true ∧ matchesName n = true := by
  unfold nameTagCaptures at h
  by_cases hm : matchesName u = true
  · rw [if_pos hm] at h
    simp only [Option.some.injEq, Prod.mk.injEq] at h
    exact Or.inl ⟨h.2.symm, h.1.symm, hm⟩
  · rw [if_neg hm] at h
    cases he : splitLast ':' u with
    | none => rw [he] at h; exact absurd h (by simp)
    | some p =>
      rw [he] at h
      cases p with
      | mk a b =>
        dsimp only at h
        by_cases hg : (matchesTag b && matchesName a) = true
        · rw [if_pos hg] at h
          rw [Bool.and_eq_true] at hg
          simp only [Option.some.injEq, Prod.mk.injEq] at h
          obtain ⟨hu, hbz⟩ := splitLast_eq_some he
          refine Or.inr ⟨b, h.2.symm, ?_, hbz, hg.1, ?_⟩
          · rw [← h.1]; exact hu
          · rw [← h.1]; exact hg.2
        · rw [if_neg hg] at h
          exact absurd h (by simp)

/-- `refCaptures` destructor: the captured name heads the input, i.e.
the input extends the name by the optional `:tag` and `@digest`
suffixes, and the name matches `NAME_RE`. -/
theorem refCaptures_elim {s : Str} {caps : RefCaps}
    (h : refCaptures s = some caps) :
    matchesName caps.name = true ∧
      ∃ rest, s = caps.name ++ rest ∧
        (caps.tag = none → rest = [] ∨ ∃ v, rest = '@' :: v) ∧
        (∀ t, caps.tag = some t →
          (rest = ':' :: t ∨ ∃ v, rest = ':' :: t ++ '@' :: v) ∧
            matchesTag t = true) := by
  unfold refCaptures at h
  cases he : splitFirst '@' s with
  | none =>
    rw [he] at h
    dsimp only at h
    cases hn : nameTagCaptures s with
    | none => rw [hn] at h; exact absurd h (by simp)
    | some p =>
      rw [hn] at h
      cases p with
      | mk n topt =>
        dsimp only at h
        simp only [Option.some.injEq] at h
        subst h
        rcases nameTagCaptures_elim hn with ⟨ht, hnu, hm⟩ | ⟨t, ht, hu, _, hmt, hm⟩
        · subst hnu
          exact ⟨hm, [], by simp, fun _ => by simp [ht], fun t hts => by
            rw [ht] at hts; exact Option.noConfusion hts⟩
        · refine ⟨hm, ':' :: t, hu, ?_, ?_⟩
          · intro hc; rw [ht] at hc; exact Option.noConfusion hc
          · intro t2 ht2
            rw [ht] at ht2
            have : t = t2 := Option.some.inj ht2
            subst this
            exact ⟨Or.inl rfl, hmt⟩
  | some p =>
    rw [he] at h
    cases p with
    | mk u v =>
      dsimp only at h
      by_cases hd : matchesDigestStr v = true
      · rw [if_pos hd] at h
        cases hn : nameTagCaptures u with
        | none => rw [hn] at h; exact absurd h (by simp)
        | some p2 =>
          rw [hn] at h
          cases p2 with
          | mk n topt =>
            dsimp only at h
            simp only [Option.some.injEq] at h
            subst h
            obtain ⟨hs, _⟩ := splitFirst_eq_some he
            rcases nameTagCaptures_elim hn with ⟨ht, hnu, hm⟩ | ⟨t, ht, hu, _, hmt, hm⟩
            · subst hnu
              refine ⟨hm, '@' :: v, by rw [hs], fun _ => Or.inr ⟨v, rfl⟩, ?_⟩
              intro t hts; rw [ht] at hts; exact Option.noConfusion hts
            · refine ⟨hm, ':' :: t ++ '@' :: v, by rw [hs, hu]; simp, ?_, ?_⟩
              · intro hc; rw [ht] at hc; exact Option.noConfusion hc
              · intro t2 ht2
                rw [ht] at ht2
                have : t = t2 := Option.some.inj ht2
                subst this
                exact ⟨Or.inr ⟨v, rfl⟩, hmt⟩
      · rw [if_neg hd] at h
        exact absurd h (by simp)

/-- `capturingName` destructor. -/
theorem capturingName_elim {n : Str} {domOpt : Option Str} {p0 : Str}
    (h : capturingName n = some (domOpt, p0)) :
    (domOpt = none ∧ p0 = n ∧ matchesPath n = true) ∨
      ∃ d, domOpt = some d ∧ n = d ++ '/' :: p0 ∧ '/' ∉ d ∧
        matchesDomain d = true ∧ matchesPath p0 = true := by
  unfold capturingName at h
  cases he : splitFirst '/' n with
  | none =>
    rw [he] at h
    by_cases hp : matchesPath n = true
    · rw [if_pos hp] at h
      simp only [Option.some.injEq, Prod.mk.injEq] at h
      exact Or.inl ⟨h.1.symm, h.2.symm, hp⟩
    · rw [if_neg hp] at h; exact absurd h (by simp)
  | some p =>
    rw [he] at h
    cases p with
    | mk d rest =>
      dsimp only at h
      obtain ⟨hn, hd⟩ := splitFirst_eq_some he
      by_cases hg : (matchesDomain d && matchesPath rest) = true
      · rw [if_pos hg] at h
        rw [Bool.and_eq_true] at hg
        simp only [Option.some.injEq, Prod.mk.injEq] at h
        obtain ⟨hdo, hp0⟩ := h
        subst hdo
        subst hp0
        exact Or.inr ⟨d, rfl, hn, hd, hg.1, hg.2⟩
      · rw [if_neg hg] at h
        by_cases hp : matchesPath n = true
        · rw [if_pos hp] at h
          simp only [Option.some.injEq, Prod.mk.injEq] at h
          exact Or.inl ⟨h.1.symm, h.2.symm, hp⟩
        · rw [if_neg hp] at h; exact absurd h (by simp)

/-- After `get_domain_name`, the component before the first slash (when
one exists) contains a dot or colon, or is `localhost`, or is the
freshly prepended default domain. -/
theorem get_domain_name_first {s d rest : Str}
    (h : get_domain_name s = d ++ '/' :: rest) (hd : '/' ∉ d) :
    d.any (fun c => c = '.' || c = ':') = true ∨ d = "localhost".data ∨
      d = DEFAULT_DOCKER_DOMAIN := by
  unfold get_domain_name at h
  cases he : splitFirst '/' s with
  | none =>
    rw [he] at h
    dsimp only at h
    have hnm : '/' ∉ s := splitFirst_none_not_mem he
    rw [h] at hnm
    exact absurd (by simp : '/' ∈ d ++ '/' :: rest) hnm
  | some p =>
    rw [he] at h
    cases p with
    | mk md r0 =>
      dsimp only at h
      by_cases h1 : md.any (fun c => c = '.' || c = ':') = true
      · rw [if_pos h1] at h
        obtain ⟨hs, hmd⟩ := splitFirst_eq_some he
        rw [h] at he
        rw [splitFirst_append rest hd] at he
        simp only [Option.some.injEq, Prod.mk.injEq] at he
        rw [he.1]
        exact Or.inl h1
      · rw [if_neg h1] at h
        by_cases h2 : md = "localhost".data
        · rw [if_pos h2] at h
          rw [h] at he
          rw [splitFirst_append rest hd] at he
          simp only [Option.some.injEq, Prod.mk.injEq] at he
          rw [he.1]
          exact Or.inr (Or.inl h2)
        · rw [if_neg h2] at h
          have hds : '/' ∉ DEFAULT_DOCKER_DOMAIN := by decide
          have := splitFirst_append (c := '/') s hds
          rw [h, splitFirst_append rest hd] at this
          simp only [Option.some.injEq, Prod.mk.injEq] at this
          exact Or.inr (Or.inr this.1)

/-- Structure of a successful `parse`: the captures that produced the
reference and how each field was computed from them. -/
theorem parse_ok_elim {s : Str} {r : DockerReference}
    (h : parse s = .ok r) :
    ∃ caps domOpt path0,
      refCaptures (get_domain_name s) = some caps ∧ caps.name ≠ [] ∧
      capturingName caps.name = some (domOpt, path0) ∧
      r.repo.domain = resolve_domain domOpt ∧
      r.repo.path = resolve_path (resolve_domain domOpt) path0 ∧
      r.repo.path.length ≤ 256 ∧
      r.tag = resolve_tag (caps.tag.getD []) ∧
      r.digest = Digest.new_from_str (caps.tag.getD []) ∧
      r.input_ref = get_domain_name s := by
  unfold parse at h
  by_cases hs : s = []
  · rw [if_pos hs] at h; exact absurd h (by simp)
  · rw [if_neg hs] at h
    dsimp only at h
    cases hc : refCaptures (get_domain_name s) with
    | none => rw [hc] at h; exact absurd h (by simp)
    | some caps =>
      rw [hc] at h
      dsimp only at h
      by_cases hn : caps.name = []
      · rw [if_pos hn] at h; exact absurd h (by simp)
      · rw [if_neg hn] at h
        cases hcn : capturingName caps.name with
        | none => rw [hcn] at h; exact absurd h (by simp)
        | some p =>
          rw [hcn] at h
          cases p with
          | mk domOpt path0 =>
            dsimp only at h
            by_cases hlen :
                (resolve_path (resolve_domain domOpt) path0).length > 256
            · rw [if_pos hlen] at h; exact absurd h (by simp)
            · rw [if_neg hlen] at h
              have hr := Except.ok.inj h
              exact ⟨caps, domOpt, path0, rfl, hn, hcn,
                by rw [← hr],
                by rw [← hr],
                by rw [← hr]; exact Nat.le_of_not_lt hlen,
                by rw [← hr],
                by rw [← hr],
                by rw [← hr]⟩

theorem new_from_str_none_of_no_colon {t : Str} (h : ':' ∉ t) :
    Digest.new_from_str t = none := by
  unfold Digest.new_from_str
  have hsp : t.splitOn ':' = [t] :=
    List.splitOnP_eq_single _ _ (by
      intro x hx
      simp only [beq_iff_eq]
      intro he
      exact h (he ▸ hx))
  rw [hsp]

/-- The invariant satisfied by every reference in the image of
`parse`. -/
def ParseInv (r : DockerReference) : Prop :=
  (r.repo.domain = DEFAULT_DOCKER_DOMAIN ∨
    ((r.repo.domain.any (fun c => c = '.' || c = ':') = true ∨
        r.repo.domain = "localhost".data) ∧
      matchesDomain r.repo.domain = true)) ∧
  matchesPath r.repo.path = true ∧
  (r.repo.domain = DEFAULT_DOCKER_DOMAIN → '/' ∈ r.repo.path) ∧
  r.repo.path.length ≤ 256 ∧
  matchesTag r.tag = true ∧
  r.digest = none

theorem matchesPath_library_append {p : Str} (h : matchesPath p = true) :
    matchesPath ("library/".data ++ p) = true := by
  have hsh : ("library/".data ++ p : Str) = "library".data ++ '/' :: p := rfl
  unfold matchesPath
  rw [hsh]
  have hsp : ("library".data ++ '/' :: p).splitOn '/' =
      "library".data :: p.splitOn '/' := by
    have := List.splitOnP_first (fun c => c == '/') "library".data
      (by decide) '/' (by decide) p
    exact this
  rw [hsp, List.all_cons, Bool.and_eq_true]
  exact ⟨by decide, h⟩

theorem parse_ok_inv {s : Str} {r : DockerReference}
    (h : parse s = .ok r) : ParseInv r := by
  obtain ⟨caps, domOpt, path0, hc, hn, hcn, hdom, hpath, hlen, htag, hdig, _⟩ :=
    parse_ok_elim h
  obtain ⟨hmn, rest, hsdecomp, _, htagrest⟩ := refCaptures_elim hc
  have htagfacts : matchesTag (caps.tag.getD []) = true ∨ caps.tag.getD [] = [] := by
    cases ht : caps.tag with
    | none => exact Or.inr rfl
    | some t => exact Or.inl (htagrest t ht).2
  constructor
  · -- domain invariant
    rcases capturingName_elim hcn with ⟨hdo, _, _⟩ | ⟨d, hdo, hname, hsl, hmd, _⟩
    · subst hdo
      exact Or.inl (by rw [hdom]; rfl)
    · subst hdo
      have hdne : d ≠ [] := matchesDomain_ne_nil hmd
      have hres : resolve_domain (some d) = d := by
        unfold resolve_domain
        simp [hdne]
      rw [hdom, hres]
      have hfull : get_domain_name s = d ++ '/' :: (path0 ++ rest) := by
        rw [hsdecomp, hname]
        simp
      rcases get_domain_name_first hfull hsl with hg | hg | hg
      · exact Or.inr ⟨Or.inl hg, hmd⟩
      · exact Or.inr ⟨Or.inr hg, hmd⟩
      · exact Or.inl hg
  refine ⟨?_, ?_, hlen, ?_, ?_⟩
  · -- path invariant
    have hp0 : matchesPath path0 = true := by
      rcases capturingName_elim hcn with ⟨_, hp0n, hmp⟩ | ⟨d, _, _, _, _, hmp⟩
      · rw [hp0n]; exact hmp
      · exact hmp
    rw [hpath]
    unfold resolve_path
    by_cases hcond : ¬ '/' ∈ path0 ∧ resolve_domain domOpt = DEFAULT_DOCKER_DOMAIN
    · rw [if_pos hcond]
      exact matchesPath_library_append hp0
    · rw [if_neg hcond]
      exact hp0
  · -- default domain implies a slash in the path
    intro hdd
    rw [hpath]
    unfold resolve_path
    by_cases hcond : ¬ '/' ∈ path0 ∧ resolve_domain domOpt = DEFAULT_DOCKER_DOMAIN
    · rw [if_pos hcond]
      have : '/' ∈ "library/".data := by decide
      exact List.mem_append_left _ this
    · rw [if_neg hcond]
      rw [hdom] at hdd
      rcases Decidable.not_and_iff_or_not.mp hcond with hcond2 | hcond2
      · exact Decidable.not_not.mp hcond2
      · exact absurd hdd hcond2
  · -- tag invariant
    rw [htag]
    unfold resolve_tag
    rcases htagfacts with hmt | hte
    · rw [if_neg (matchesTag_ne_nil hmt)]
      exact hmt
    · rw [hte]
      decide
  · -- the digest field is always `none`
    rw [hdig]
    rcases htagfacts with hmt | hte
    · exact new_from_str_none_of_no_colon
        (matchesTag_not_mem hmt (by decide))
    · rw [hte]
      rfl

theorem matchesPath_false_of_colon {p : Str} (h : ':' ∈ p) :
    matchesPath p = false := by
  by_contra hc
  have hc2 : matchesPath p = true := by simpa using hc
  exact matchesPath_not_mem hc2 (by decide) (by decide) h

/-- A canonical body `domain/path:tag` does not match `NAME_RE` (the
colon before the tag sits after a slash, where neither a path
component nor a port may carry it). -/
theorem matchesName_false_canonical {d p t : Str} (hd : '/' ∉ d) :
    matchesName (d ++ '/' :: (p ++ ':' :: t)) = false := by
  unfold matchesName
  rw [splitFirst_append (p ++ ':' :: t) hd]
  have h1 : matchesPath (d ++ '/' :: (p ++ ':' :: t)) = false :=
    matchesPath_false_of_colon (by simp)
  have h2 : matchesPath (p ++ ':' :: t) = false :=
    matchesPath_false_of_colon (by simp)
  rw [h1]
  dsimp only
  rw [h2]
  simp

/-- The invariant's domain component always passes `matchesDomain` and
never contains `/` or `@`. -/
theorem inv_domain_facts {d : Str}
    (hdom : d = DEFAULT_DOCKER_DOMAIN ∨
      ((d.any (fun c => c = '.' || c = ':') = true ∨ d = "localhost".data) ∧
        matchesDomain d = true)) :
    matchesDomain d = true ∧ '/' ∉ d ∧ '@' ∉ d ∧ d ≠ [] := by
  have hmd : matchesDomain d = true := by
    rcases hdom with h | h
    · rw [h]; decide
    · exact h.2
  exact ⟨hmd,
    matchesDomain_not_mem hmd (by decide) (by decide) (by decide) (by decide),
    matchesDomain_not_mem hmd (by decide) (by decide) (by decide) (by decide),
    matchesDomain_ne_nil hmd⟩

/-- `get_domain_name` leaves a canonical body unchanged: its first
component is a domain the function recognizes. -/
theorem get_domain_name_canonical {d : Str} (x : Str)
    (hdom : d = DEFAULT_DOCKER_DOMAIN ∨
      ((d.any (fun c => c = '.' || c = ':') = true ∨ d = "localhost".data) ∧
        matchesDomain d = true)) :
    get_domain_name (d ++ '/' :: x) = d ++ '/' :: x := by
  obtain ⟨_, hsl, _, _⟩ := inv_domain_facts hdom
  unfold get_domain_name
  rw [splitFirst_append x hsl]
  dsimp only
  by_cases hany : d.any (fun c => c = '.' || c = ':') = true
  · rw [if_pos hany]
  · rw [if_neg hany]
    rcases hdom with h | h
    · exact absurd (by rw [h]; decide) hany
    · rcases h.1 with h2 | h2
      · exact absurd h2 hany
      · rw [if_pos h2]

/-- `matchesName` holds for `domain/path`. -/
theorem matchesName_canonical {d p : Str} (hd : '/' ∉ d)
    (hmd : matchesDomain d = true) (hp : matchesPath p = true) :
    matchesName (d ++ '/' :: p) = true := by
  unfold matchesName
  rw [splitFirst_append p hd]
  dsimp only
  rw [hmd, hp]
  simp

/-- A canonical body has no double slash (needed for the `split("//")`
of the transport round trip). -/
theorem canonical_noDSlash {d p t : Str} (hd : '/' ∉ d)
    (hp : matchesPath p = true) (ht : '/' ∉ t) :
    noDSlash (d ++ '/' :: (p ++ ':' :: t)) = true := by
  obtain ⟨hnp, hph⟩ := matchesPath_noDSlash hp
  have hnt : noDSlash (':' :: t) = true :=
    noDSlash_of_not_mem (by
      simp only [List.mem_cons, not_or]
      exact ⟨by decide, ht⟩)
  have hmid : noDSlash (p ++ ':' :: t) = true :=
    noDSlash_append hnp hnt (by simp)
  apply noDSlash_append_left hd
  cases p with
  | nil => exact absurd rfl (matchesPath_ne_nil hp)
  | cons p0 ps =>
    have hp0ne : decide (p0 = '/') = false := decide_eq_false (hph p0 rfl)
    have hmid2 : noDSlash (p0 :: (ps ++ ':' :: t)) = true := by
      rw [List.cons_append] at hmid
      exact hmid
    show noDSlash ('/' :: p0 :: (ps ++ ':' :: t)) = true
    rw [noDSlash_cons_cons, hp0ne, hmid2]
    rfl

/-- Re-parsing a canonical body reproduces the reference (with the body
itself as `input_ref`). -/
theorem parse_canonical_inner {d p t : Str}
    (hdom : d = DEFAULT_DOCKER_DOMAIN ∨
      ((d.any (fun c => c = '.' || c = ':') = true ∨ d = "localhost".data) ∧
        matchesDomain d = true))
    (hp : matchesPath p = true)
    (hslash : d = DEFAULT_DOCKER_DOMAIN → '/' ∈ p)
    (hlen : p.length ≤ 256)
    (ht : matchesTag t = true) :
    parse (d ++ '/' :: (p ++ ':' :: t)) =
      .ok { repo := { domain := d, path := p }, tag := t, digest := none,
            input_ref := d ++ '/' :: (p ++ ':' :: t) } := by
  obtain ⟨hmd, hdsl, hdat, hdne⟩ := inv_domain_facts hdom
  have htcol : ':' ∉ t := matchesTag_not_mem ht (by decide)
  have htsl : '/' ∉ t := matchesTag_not_mem ht (by decide)
  have htat : '@' ∉ t := matchesTag_not_mem ht (by decide)
  have hpat : '@' ∉ p := matchesPath_not_mem hp (by decide) (by decide)
  have hpcol : ':' ∉ p := matchesPath_not_mem hp (by decide) (by decide)
  have htne : t ≠ [] := matchesTag_ne_nil ht
  have hpne : p ≠ [] := matchesPath_ne_nil hp
  set m : Str := d ++ '/' :: (p ++ ':' :: t) with hm
  have hmne : m ≠ [] := by
    rw [hm]
    cases hd0 : d with
    | nil => exact absurd hd0 hdne
    | cons a b => simp
  have hmat : '@' ∉ m := by
    rw [hm]
    intro hmem
    rcases List.mem_append.mp hmem with h1 | h1
    · exact hdat h1
    · rcases List.mem_cons.mp h1 with h2 | h2
      · exact absurd h2 (by decide)
      · rcases List.mem_append.mp h2 with h3 | h3
        · exact hpat h3
        · rcases List.mem_cons.mp h3 with h4 | h4
          · exact absurd h4 (by decide)
          · exact htat h4
  have hassoc : m = (d ++ '/' :: p) ++ ':' :: t := by
    rw [hm]; simp
  have hnamene : d ++ '/' :: p ≠ [] := by
    cases hd0 : d with
    | nil => exact absurd hd0 hdne
    | cons a b => simp
  have hrc : refCaptures m = some ⟨d ++ '/' :: p, some t, none⟩ := by
    unfold refCaptures
    rw [splitFirst_of_not_mem hmat]
    try dsimp only
    unfold nameTagCaptures
    rw [hm, matchesName_false_canonical hdsl]
    try dsimp only
    rw [← hm, hassoc, splitLast_append (d ++ '/' :: p) htcol]
    try dsimp only
    rw [ht, matchesName_canonical hdsl hmd hp]
    rfl
  have hcapn : capturingName (d ++ '/' :: p) = some (some d, p) := by
    unfold capturingName
    rw [splitFirst_append p hdsl]
    try dsimp only
    rw [hmd, hp]
    rfl
  have hgdn : get_domain_name m = m := get_domain_name_canonical _ hdom
  unfold parse
  rw [if_neg hmne]
  try dsimp only
  rw [hgdn, hrc]
  try dsimp only
  rw [if_neg hnamene, hcapn]
  try dsimp only
  have hrd : resolve_domain (some d) = d := by
    unfold resolve_domain
    simp [hdne]
  rw [hrd]
  have hrp : resolve_path d p = p := by
    unfold resolve_path
    rw [if_neg]
    intro hcond
    exact hcond.1 (hslash hcond.2)
  rw [hrp]
  rw [if_neg (by omega : ¬p.length > 256)]
  have hrt : resolve_tag t = t := by
    unfold resolve_tag
    rw [if_neg htne]
  have hnd : Digest.new_from_str t = none :=
    new_from_str_none_of_no_colon htcol
  simp only [Option.getD_some, hrt, hnd]

/-- The canonical within-transport string of a digest-free reference
with a nonempty tag. -/
theorem get_string_within_transport_eq {r : DockerReference}
    (hdg : r.digest = none) (htne : r.tag ≠ []) :
    get_string_within_transport r =
      '/' :: '/' :: (r.repo.domain ++ '/' :: (r.repo.path ++ ':' :: r.tag)) := by
  unfold get_string_within_transport
  rw [hdg, if_neg htne]
  simp

/-- Re-parsing the canonical string through the docker transport
reproduces the reference fields. -/
theorem docker_parse_canonical {r : DockerReference} (hinv : ParseInv r) :
    docker_parse_reference (get_string_within_transport r) =
      .ok { repo := r.repo, tag := r.tag, digest := none,
            input_ref :=
              r.repo.domain ++ '/' :: (r.repo.path ++ ':' :: r.tag) } := by
  obtain ⟨hdom, hp, hslash, hlen, ht, hdg⟩ := hinv
  obtain ⟨hmd, hdsl, _, hdne⟩ := inv_domain_facts hdom
  have htne : r.tag ≠ [] := matchesTag_ne_nil ht
  have htsl : '/' ∉ r.tag := matchesTag_not_mem ht (by decide)
  set m : Str := r.repo.domain ++ '/' :: (r.repo.path ++ ':' :: r.tag) with hm
  have hcanon : get_string_within_transport r = '/' :: '/' :: m :=
    get_string_within_transport_eq hdg htne
  have hnods : noDSlash m = true := canonical_noDSlash hdsl hp htsl
  have hnocontain : containsSub ['/', '/'] m = false := by
    rw [containsSub_dslash_eq, hnods]
    rfl
  have hshape : ('/' :: '/' :: m : Str) = ['/', '/'] ++ m := rfl
  unfold docker_parse_reference
  rw [hcanon]
  have hcont : containsSub ['/', '/'] ('/' :: '/' :: m) = true := by
    unfold containsSub
    simp [List.isPrefixOf]
  rw [hcont]
  try dsimp only
  rw [hshape, splitSub_pat_append (by simp) hnocontain]
  try dsimp only
  rw [hm, parse_canonical_inner hdom hp hslash hlen ht]
  rfl

/-- Full canonical round trip for every reference produced by `parse`:
the four reference fields survive, and printing again reproduces the
canonical string. -/
theorem parse_roundtrip {s : Str} {r : DockerReference}
    (h : parse s = .ok r) :
    ∃ r2, docker_parse_reference (get_string_within_transport r) = .ok r2 ∧
      r2.repo.domain = r.repo.domain ∧ r2.repo.path = r.repo.path ∧
      r2.tag = r.tag ∧ r2.digest = r.digest ∧
      get_string_within_transport r2 = get_string_within_transport r := by
  have hinv := parse_ok_inv h
  refine ⟨_, docker_parse_canonical hinv, rfl, rfl, rfl, hinv.2.2.2.2.2.symm, ?_⟩
  have hdg := hinv.2.2.2.2.2
  have htne : r.tag ≠ [] := matchesTag_ne_nil hinv.2.2.2.2.1
  have h2 := get_string_within_transport_eq
    (r := ⟨r.repo, r.tag, none,
      r.repo.domain ++ '/' :: (r.repo.path ++ ':' :: r.tag)⟩) rfl htne
  simp only [get_string_within_transport_eq hdg htne, h2]

/-! ## Auxiliary lemmas for the claims -/

theorem splitOn_pair {a h : Str} (ha : ':' ∉ a) (hh : ':' ∉ h) :
    (a ++ ':' :: h).splitOn ':' = [a, h] := by
  have h1 : (a ++ ':' :: h).splitOnP (fun c => c == ':') =
      a :: h.splitOnP (fun c => c == ':') :=
    List.splitOnP_first _ a
      (by
        intro x hx
        simp only [beq_iff_eq]
        intro he
        exact ha (he ▸ hx)) ':' (by simp) h
  have h2 : h.splitOnP (fun c => c == ':') = [h] :=
    List.splitOnP_eq_single _ _
      (by
        intro x hx
        simp only [beq_iff_eq]
        intro he
        exact hh (he ▸ hx))
  show (a ++ ':' :: h).splitOnP (fun c => c == ':') = [a, h]
  rw [h1, h2]

theorem splitOn_triple {a b c : Str} (ha : ':' ∉ a) (hb : ':' ∉ b)
    (hc : ':' ∉ c) :
    (a ++ ':' :: (b ++ ':' :: c)).splitOn ':' = [a, b, c] := by
  have h1 : (a ++ ':' :: (b ++ ':' :: c)).splitOnP (fun x => x == ':') =
      a :: (b ++ ':' :: c).splitOnP (fun x => x == ':') :=
    List.splitOnP_first _ a
      (by
        intro x hx
        simp only [beq_iff_eq]
        intro he
        exact ha (he ▸ hx)) ':' (by simp) (b ++ ':' :: c)
  show (a ++ ':' :: (b ++ ':' :: c)).splitOnP (fun x => x == ':') = [a, b, c]
  rw [h1]
  have h2 := splitOn_pair hb hc
  show a :: (b ++ ':' :: c).splitOn ':' = [a, b, c]
  rw [h2]

theorem containsSub_append_right {pat l : Str} (h : containsSub pat l = true)
    (x : Str) : containsSub pat (x ++ l) = true := by
  induction x with
  | nil => simpa using h
  | cons c t ih =>
    rw [List.cons_append]
    unfold containsSub
    rw [ih]
    simp

theorem containsSub_self_append {p0 : Char} {pt : Str} (y : Str) :
    containsSub (p0 :: pt) ((p0 :: pt) ++ y) = true := by
  have hpre : (p0 :: pt).isPrefixOf ((p0 :: pt) ++ y) = true := by
    rw [List.isPrefixOf_iff_prefix]
    exact List.prefix_append _ _
  rw [List.cons_append]
  unfold containsSub
  rw [← List.cons_append, hpre]
  simp

theorem replAllGo_of_not_contains {pat : Str} (_hp : pat ≠ []) :
    ∀ (n : Nat) (l : Str), l.length ≤ n → containsSub pat l = false →
      replAllGo pat n l = l := by
  intro n
  induction n with
  | zero => intro l _ _; rfl
  | succ n ih =>
    intro l hlen hc
    cases l with
    | nil => rfl
    | cons c t =>
      simp only [containsSub, Bool.or_eq_false_iff] at hc
      simp only [replAllGo, hc.1]
      rw [ih t (by simpa using Nat.le_of_succ_le_succ hlen) hc.2]
      simp

/-- `str::replace(pat, "")` on a string with exactly one occurrence of
the pattern, sitting after a stretch that cannot start a match. -/
theorem replaceAll_once {p0 : Char} {pt a b : Str}
    (ha : ∀ c ∈ a, c ≠ p0) (hb : containsSub (p0 :: pt) b = false) :
    replaceAll (p0 :: pt) (a ++ (p0 :: pt) ++ b) = a ++ b := by
  have hmain : ∀ (n : Nat) (x : Str), (∀ c ∈ x, c ≠ p0) →
      (x ++ (p0 :: pt) ++ b).length ≤ n →
      replAllGo (p0 :: pt) n (x ++ (p0 :: pt) ++ b) = x ++ b := by
    intro n
    induction n with
    | zero =>
      intro x _ hlen
      exfalso
      simp at hlen
    | succ n ih =>
      intro x hx hlen
      cases x with
      | nil =>
        have hshape : (([] : Str) ++ (p0 :: pt) ++ b) = p0 :: (pt ++ b) := by
          simp
        rw [hshape]
        have hpre : (p0 :: pt).isPrefixOf (p0 :: (pt ++ b)) = true := by
          rw [List.isPrefixOf_iff_prefix, ← List.cons_append]
          exact List.prefix_append _ _
        simp only [replAllGo, hpre]
        rw [← List.cons_append, List.drop_left]
        rw [replAllGo_of_not_contains (by simp) n b (by
          rw [hshape] at hlen
          simp at hlen ⊢
          omega) hb]
        simp
      | cons c t =>
        have hcp : (p0 == c) = false := by
          have : c ≠ p0 := hx c (by simp)
          simp [beq_swap_char, this]
        have hpre : (p0 :: pt).isPrefixOf (c :: (t ++ (p0 :: pt) ++ b)) = false := by
          simp [List.isPrefixOf, hcp]
        have hshape : ((c :: t : Str) ++ (p0 :: pt) ++ b) =
            c :: (t ++ (p0 :: pt) ++ b) := by simp
        rw [hshape]
        simp only [replAllGo, hpre]
        rw [ih t (fun d hd => hx d (by simp [hd])) (by
          rw [hshape] at hlen
          simpa using Nat.le_of_succ_le_succ hlen)]
        simp
  unfold replaceAll
  rw [if_neg (by simp)]
  exact hmain _ _ ha (Nat.le_refl _)

/-- `find_platform_manifest` computes the source's first-match loop;
when no entry lacks an architecture (no panic), it agrees with
`List.find?` over the platform predicate. -/
theorem find_platform_manifest_eq_find (platform : Platform)
    (getManifest : Digest → Except ImageError ImageManifest) :
    ∀ ms : List Schema2ManifestDescriptor,
      (∀ mm ∈ ms, mm.platform.architecture ≠ none) →
      find_platform_manifest platform getManifest ms =
        (match ms.find? (fun mm =>
            mm.platform.architecture == some platform.architecture &&
              mm.platform.os == platform.os) with
         | some mm =>
           (match getManifest mm.digest with
            | .ok mf => PRes.ok mf
            | .error e => PRes.err e)
         | none => PRes.err .new) := by
  intro ms
  induction ms with
  | nil => intro _; rfl
  | cons m rest ih =>
    intro hall
    have hm := hall m (by simp)
    cases harch : m.platform.architecture with
    | none => exact absurd harch hm
    | some arch =>
      unfold find_platform_manifest
      rw [harch]
      dsimp only
      by_cases hcond :
          (decide (platform.architecture = arch) &&
            decide (platform.os = m.platform.os)) = true
      · rw [if_pos hcond]
        rw [Bool.and_eq_true, decide_eq_true_iff, decide_eq_true_iff] at hcond
        have hpred : (fun mm : Schema2ManifestDescriptor =>
            mm.platform.architecture == some platform.architecture &&
              mm.platform.os == platform.os) m = true := by
          dsimp only
          rw [harch]
          simp [hcond.1.symm, hcond.2.symm]
        have hf := List.find?_cons_of_pos (p := fun mm : Schema2ManifestDescriptor =>
          mm.platform.architecture == some platform.architecture &&
            mm.platform.os == platform.os) rest hpred
        rw [hf]
      · rw [if_neg hcond]
        rw [ih (fun mm hmm => hall mm (by simp [hmm]))]
        have hpred : (fun mm : Schema2ManifestDescriptor =>
            mm.platform.architecture == some platform.architecture &&
              mm.platform.os == platform.os) m = false := by
          dsimp only
          rw [harch]
          rw [Bool.and_eq_true, decide_eq_true_iff, decide_eq_true_iff] at hcond
          by_cases h1 : arch = platform.architecture
          · by_cases h2 : m.platform.os = platform.os
            · exact absurd ⟨h1.symm, h2.symm⟩ hcond
            · simp [h2]
          · simp [h1]
        have hneg : ¬((fun mm : Schema2ManifestDescriptor =>
            mm.platform.architecture == some platform.architecture &&
              mm.platform.os == platform.os) m = true) := by
          rw [hpred]
          exact Bool.false_ne_true
        have hf := List.find?_cons_of_neg (p := fun mm : Schema2ManifestDescriptor =>
          mm.platform.architecture == some platform.architecture &&
            mm.platform.os == platform.os) rest hneg
        rw [hf]

/-! ## The claims -/

/-- C1: the claim says that when the gzip-decompressed layer blob fails
digest verification against the rootfs `diff_id`, the layer's download
task fails and the whole pull returns an error.  The code (and its own
comment "If fails - fail") intends this, but `do_download_image_layer`
only logs the mismatch and returns `Ok(())`: this theorem shows that at
any verification-failing input the task returns `Ok` with the layout
unchanged (the blob is indeed not written), and the layer phase of
`perform_image_pull` then *succeeds* and writes `index.json` and the
layout file — the pull does not return an error. -/
theorem claim_C1_code_bug (H : List Nat → Str)
    (gunzip : List Nat → List Nat)
    (get_blob : Digest → Except ImageError (List Nat))
    (blobs : List (Digest × List Nat)) (layer unzipped : Digest)
    (bytes : List Nat)
    (hblob : get_blob layer = .ok bytes)
    (halg : Digest.digester unzipped = .ok ())
    (hmismatch : ¬H (gunzip bytes) = unzipped.hex_digest) :
    do_download_image_layer H gunzip get_blob blobs layer unzipped =
      .ok blobs ∧
    perform_image_pull_layers H gunzip get_blob ⟨blobs, false, false⟩
        [(layer, unzipped)] =
      .ok ⟨blobs, true, true⟩ := by
  have hdl : do_download_image_layer H gunzip get_blob blobs layer unzipped =
      .ok blobs := by
    unfold do_download_image_layer
    rw [hblob]
    unfold Digest.verify
    rw [halg]
    dsimp only
    rw [decide_eq_false hmismatch]
    rfl
  refine ⟨hdl, ?_⟩
  unfold perform_image_pull_layers download_layers
  rw [hdl]
  rfl

/-- C1 witness: a concrete mismatching layer. -/
theorem claim_C1_code_bug_witness :
    do_download_image_layer (fun _ => []) (fun b => b)
        (fun _ => .ok []) [] ⟨"sha256".data, "aa".data⟩
        ⟨"sha256".data, "bb".data⟩ = .ok [] ∧
    perform_image_pull_layers (fun _ => []) (fun b => b)
        (fun _ => .ok []) ⟨[], false, false⟩
        [(⟨"sha256".data, "aa".data⟩, ⟨"sha256".data, "bb".data⟩)] =
      .ok ⟨[], true, true⟩ :=
  claim_C1_code_bug (fun _ => []) (fun b => b) (fun _ => .ok []) []
    ⟨"sha256".data, "aa".data⟩ ⟨"sha256".data, "bb".data⟩ []
    rfl rfl (by decide)

/-- C2 counterexample: the claim says the resolver returns an OCI image
manifest as-is and resolves an OCI image index; the code's
`manifest_for_our_os_arch` matches only the two Docker media types and
sends both OCI media types into the unsupported-media-type error
branch. -/
theorem claim_C2_counterexample :
    manifest_for_our_os_arch (get_os_platform "linux".data "x86_64".data)
        (fun _ => .error .new) (fun _ => .error .new)
        ⟨[], MEDIA_TYPE_IMAGE_MANIFEST⟩ = .err .new ∧
    manifest_for_our_os_arch (get_os_platform "linux".data "x86_64".data)
        (fun _ => .error .new) (fun _ => .error .new)
        ⟨[], MEDIA_TYPE_IMAGE_INDEX⟩ = .err .new :=
  ⟨rfl, rfl⟩

/-- C2 (amended): the resolver returns the manifest as-is only for the
Docker v2 schema2 media type; only for the Docker manifest list does it
parse the entries and re-fetch, by digest, the first entry whose
platform equals the current platform (`os` equal and `architecture`
equal to the normalized architecture, `x86_64 → amd64`,
`aarch64 → arm64`); every other media type — including both OCI media
types — yields the unsupported-media-type `ImageError`. -/
theorem claim_C2 (platform : Platform)
    (parseList : List Nat → Except ImageError Schema2List)
    (getManifest : Digest → Except ImageError ImageManifest)
    (original : ImageManifest) :
    (original.mime_type = MEDIA_TYPE_DOCKER_V2_SCHEMA2_MANIFEST →
      manifest_for_our_os_arch platform parseList getManifest original =
        .ok original) ∧
    (original.mime_type = MEDIA_TYPE_DOCKER_V2_LIST →
      ∀ list, parseList original.manifest = .ok list →
        (∀ mm ∈ list.manifests, mm.platform.architecture ≠ none) →
        manifest_for_our_os_arch platform parseList getManifest original =
          (match list.manifests.find? (fun mm =>
              mm.platform.architecture == some platform.architecture &&
                mm.platform.os == platform.os) with
           | some mm =>
             (match getManifest mm.digest with
              | .ok mf => PRes.ok mf
              | .error e => PRes.err e)
           | none => PRes.err .new)) ∧
    (original.mime_type ≠ MEDIA_TYPE_DOCKER_V2_SCHEMA2_MANIFEST →
      original.mime_type ≠ MEDIA_TYPE_DOCKER_V2_LIST →
      manifest_for_our_os_arch platform parseList getManifest original =
        .err .new) ∧
    (get_os_platform "linux".data "x86_64".data).architecture =
      "amd64".data ∧
    (get_os_platform "linux".data "aarch64".data).architecture =
      "arm64".data ∧
    (get_os_platform "linux".data "x86_64".data).os = "linux".data := by
  refine ⟨?_, ?_, ?_, by decide, by decide, by decide⟩
  · intro hmime
    unfold manifest_for_our_os_arch
    rw [if_pos hmime]
  · intro hmime list hparse hall
    have hne : original.mime_type ≠ MEDIA_TYPE_DOCKER_V2_SCHEMA2_MANIFEST := by
      rw [hmime]; decide
    unfold manifest_for_our_os_arch
    rw [if_neg hne, if_pos hmime, hparse]
    exact find_platform_manifest_eq_find platform getManifest
      list.manifests hall
  · intro h1 h2
    unfold manifest_for_our_os_arch
    rw [if_neg h1, if_neg h2]

/-- C2 witness: a two-entry Docker manifest list on an `amd64` host
resolves to the `amd64` child by digest. -/
theorem claim_C2_witness :
    ("application/vnd.docker.distribution.manifest.list.v2+json".data : Str) =
        MEDIA_TYPE_DOCKER_V2_LIST ∧
    manifest_for_our_os_arch (get_os_platform "linux".data "x86_64".data)
        (fun _ => .ok ⟨2, MEDIA_TYPE_DOCKER_V2_LIST,
          [⟨MEDIA_TYPE_DOCKER_V2_SCHEMA2_MANIFEST, 7, ⟨"sha256".data, "01".data⟩,
            ⟨some "arm64".data, "linux".data, none, none, none, none⟩⟩,
           ⟨MEDIA_TYPE_DOCKER_V2_SCHEMA2_MANIFEST, 7, ⟨"sha256".data, "02".data⟩,
            ⟨some "amd64".data, "linux".data, none, none, none, none⟩⟩]⟩)
        (fun d => .ok ⟨[9], Digest.toStr d⟩)
        ⟨[], MEDIA_TYPE_DOCKER_V2_LIST⟩ =
      .ok ⟨[9], "sha256:02".data⟩ := by
  constructor
  · rfl
  · have h := (claim_C2 (get_os_platform "linux".data "x86_64".data)
      (fun _ => .ok ⟨2, MEDIA_TYPE_DOCKER_V2_LIST,
        [⟨MEDIA_TYPE_DOCKER_V2_SCHEMA2_MANIFEST, 7, ⟨"sha256".data, "01".data⟩,
          ⟨some "arm64".data, "linux".data, none, none, none, none⟩⟩,
         ⟨MEDIA_TYPE_DOCKER_V2_SCHEMA2_MANIFEST, 7, ⟨"sha256".data, "02".data⟩,
          ⟨some "amd64".data, "linux".data, none, none, none, none⟩⟩]⟩)
      (fun d => .ok ⟨[9], Digest.toStr d⟩)
      ⟨[], MEDIA_TYPE_DOCKER_V2_LIST⟩).2.1 rfl _ rfl (by decide)
    rw [h]
    rfl

/-- C3: the claim says a reference input with an `@<algorithm>:<hex>`
suffix parses with the digest field set to that digest (not `None`).
The code reads the digest string from capture group 2 — the *tag*
group — of `ANCHORED_REFERENCE_RE` (`api.rs` line 57) instead of
group 3, so the parse succeeds but the digest field is `None`: the tag
capture can never contain `:` and `Digest::new_from_str` then always
returns `None`. -/
theorem claim_C3_code_bug :
    parse ("fedora@sha256:4d76a7480ce31ad2305c68ab43c7a61d0271ad8f3532131aa1e1d824b46b6e75").data =
      .ok ⟨⟨"docker.io".data, "library/fedora".data⟩, "latest".data, none,
        ("fedora@sha256:4d76a7480ce31ad2305c68ab43c7a61d0271ad8f3532131aa1e1d824b46b6e75").data⟩ ∧
    parse ("fedora:f32@sha256:4d76a7480ce31ad2305c68ab43c7a61d0271ad8f3532131aa1e1d824b46b6e75").data =
      .ok ⟨⟨"docker.io".data, "library/fedora".data⟩, "f32".data, none,
        ("fedora:f32@sha256:4d76a7480ce31ad2305c68ab43c7a61d0271ad8f3532131aa1e1d824b46b6e75").data⟩ :=
  ⟨rfl, rfl⟩

/-- C4 counterexample: the claim says every canonical reference string
round-trips through `parse` unchanged.  Take the canonical
within-transport string of a reference carrying a digest
(`//docker.io/library/fedora:latest@sha256:…`): parsing succeeds, but
the digest is dropped (see C3), so printing the canonical form again
loses the `@sha256:…` suffix. -/
theorem claim_C4_counterexample :
    docker_parse_reference (get_string_within_transport
        ⟨⟨"docker.io".data, "library/fedora".data⟩, "latest".data,
          some ⟨"sha256".data,
            "4d76a7480ce31ad2305c68ab43c7a61d0271ad8f3532131aa1e1d824b46b6e75".data⟩,
          []⟩) =
      .ok ⟨⟨"docker.io".data, "library/fedora".data⟩, "latest".data, none,
        ("docker.io/library/fedora:latest@sha256:4d76a7480ce31ad2305c68ab43c7a61d0271ad8f3532131aa1e1d824b46b6e75").data⟩ ∧
    get_string_within_transport
        ⟨⟨"docker.io".data, "library/fedora".data⟩, "latest".data, none,
          ("docker.io/library/fedora:latest@sha256:4d76a7480ce31ad2305c68ab43c7a61d0271ad8f3532131aa1e1d824b46b6e75").data⟩ ≠
      get_string_within_transport
        ⟨⟨"docker.io".data, "library/fedora".data⟩, "latest".data,
          some ⟨"sha256".data,
            "4d76a7480ce31ad2305c68ab43c7a61d0271ad8f3532131aa1e1d824b46b6e75".data⟩,
          []⟩ :=
  ⟨rfl, by decide⟩

/-- C4 (amended): Reference canonicalization round-trips on the image
of `parse` — whose references never carry a digest (see C3).  For every
legal input, re-parsing the canonical within-transport form through the
docker transport yields a reference with the same domain, path, tag and
digest, and printing that reference's canonical form reproduces the
canonical string.  (Canonical strings carrying a `@digest` suffix do
not round-trip; see the counterexample.) -/
theorem claim_C4 (s : Str) (r : DockerReference) (h : parse s = .ok r) :
    r.digest = none ∧
    docker_parse_reference (get_string_within_transport r) =
      .ok { repo := r.repo, tag := r.tag, digest := r.digest,
            input_ref :=
              r.repo.domain ++ '/' :: (r.repo.path ++ ':' :: r.tag) } ∧
    get_string_within_transport
        { repo := r.repo, tag := r.tag, digest := r.digest,
          input_ref :=
            r.repo.domain ++ '/' :: (r.repo.path ++ ':' :: r.tag) } =
      get_string_within_transport r := by
  have hinv := parse_ok_inv h
  have hdg : r.digest = none := hinv.2.2.2.2.2
  have htne : r.tag ≠ [] := matchesTag_ne_nil hinv.2.2.2.2.1
  refine ⟨hdg, ?_, ?_⟩
  · rw [hdg]
    exact docker_parse_canonical hinv
  · rw [hdg]
    have h2 := get_string_within_transport_eq
      (r := ⟨r.repo, r.tag, none,
        r.repo.domain ++ '/' :: (r.repo.path ++ ':' :: r.tag)⟩) rfl htne
    simp only [get_string_within_transport_eq hdg htne, h2]

/-- C4 witness: round trip at the concrete legal input `fedora`. -/
theorem claim_C4_witness :
    (none : Option Digest) = none ∧
    docker_parse_reference (get_string_within_transport
        ⟨⟨"docker.io".data, "library/fedora".data⟩, "latest".data, none,
          "fedora".data⟩) =
      .ok ⟨⟨"docker.io".data, "library/fedora".data⟩, "latest".data, none,
        "docker.io/library/fedora:latest".data⟩ ∧
    get_string_within_transport
        ⟨⟨"docker.io".data, "library/fedora".data⟩, "latest".data, none,
          "docker.io/library/fedora:latest".data⟩ =
      get_string_within_transport
        ⟨⟨"docker.io".data, "library/fedora".data⟩, "latest".data, none,
          "fedora".data⟩ :=
  claim_C4 "fedora".data
    ⟨⟨"docker.io".data, "library/fedora".data⟩, "latest".data, none,
      "fedora".data⟩ rfl

/-- C5: reference normalization applies the documented defaults.
Parsing `docker://fedora` through the transport layer yields domain
`docker.io`, path `library/fedora`, tag `latest` and no digest;
`docker://localhost:8000/foo/bar` yields domain `localhost:8000`, path
`foo/bar`, tag `latest`; and in general an empty captured domain
defaults to `docker.io` while a captured path without `/` on the
default domain is prefixed with `library/`. -/
theorem claim_C5 :
    parse_image_name "docker://fedora".data =
      .ok ⟨⟨"docker.io".data, "library/fedora".data⟩, "latest".data, none,
        "fedora".data⟩ ∧
    parse_image_name "docker://localhost:8000/foo/bar".data =
      .ok ⟨⟨"localhost:8000".data, "foo/bar".data⟩, "latest".data, none,
        "localhost:8000/foo/bar".data⟩ ∧
    (∀ s r caps domOpt path0,
      parse s = .ok r →
      refCaptures (get_domain_name s) = some caps →
      capturingName caps.name = some (domOpt, path0) →
      (domOpt.getD [] = [] → r.repo.domain = DEFAULT_DOCKER_DOMAIN) ∧
        (r.repo.domain = DEFAULT_DOCKER_DOMAIN → '/' ∉ path0 →
          r.repo.path = "library/".data ++ path0)) := by
  refine ⟨rfl, rfl, ?_⟩
  intro s r caps domOpt path0 h hc hcn
  obtain ⟨caps2, domOpt2, path02, hc2, _, hcn2, hdom, hpath, _, _, _, _⟩ :=
    parse_ok_elim h
  rw [hc] at hc2
  have hcaps : caps = caps2 := Option.some.inj hc2
  subst hcaps
  rw [hcn] at hcn2
  have hpair := Option.some.inj hcn2
  have hdo : domOpt = domOpt2 := congrArg Prod.fst hpair
  have hp0 : path0 = path02 := congrArg Prod.snd hpair
  subst hdo
  subst hp0
  constructor
  · intro hempty
    rw [hdom]
    unfold resolve_domain
    rw [if_pos hempty]
  · intro hdd hns
    rw [hpath]
    have hrdd : resolve_domain domOpt = DEFAULT_DOCKER_DOMAIN := by
      rw [← hdom]; exact hdd
    unfold resolve_path
    rw [if_pos ⟨hns, hrdd⟩]

/-- C5 witness: the general defaulting clauses applied at the concrete
input `fedora` (empty captured domain, path without `/`). -/
theorem claim_C5_witness :
    ((none : Option Str).getD [] = [] →
      (⟨⟨"docker.io".data, "library/fedora".data⟩, "latest".data, none,
          "fedora".data⟩ : DockerReference).repo.domain =
        DEFAULT_DOCKER_DOMAIN) ∧
    ((⟨⟨"docker.io".data, "library/fedora".data⟩, "latest".data, none,
          "fedora".data⟩ : DockerReference).repo.domain =
        DEFAULT_DOCKER_DOMAIN → '/' ∉ "fedora".data →
      (⟨⟨"docker.io".data, "library/fedora".data⟩, "latest".data, none,
          "fedora".data⟩ : DockerReference).repo.path =
        "library/".data ++ "fedora".data) :=
  claim_C5.2.2 "fedora".data
    ⟨⟨"docker.io".data, "library/fedora".data⟩, "latest".data, none,
      "fedora".data⟩
    ⟨"fedora".data, none, none⟩ none "fedora".data rfl rfl rfl

/-- C6 counterexample: the claim says digest parsing validates the hex
against `[0-9a-f]+` of the algorithm's output length, requires a
non-empty algorithm, and reports unknown algorithms as errors.
`Digest::from_str` only splits at `:`: `sha256:zz` (wrong alphabet and
length), `:x` (empty algorithm) and `foo:bar` (unknown algorithm) all
parse successfully. -/
theorem claim_C6_counterexample :
    Digest.from_str "sha256:zz".data = .ok ⟨"sha256".data, "zz".data⟩ ∧
    Digest.from_str ":x".data = .ok ⟨[], "x".data⟩ ∧
    Digest.from_str "foo:bar".data = .ok ⟨"foo".data, "bar".data⟩ :=
  ⟨rfl, rfl, rfl⟩

/-- C6 (amended): `Digest::from_str` succeeds exactly on strings with
exactly one `:`, taking the two split halves as algorithm and hex with
no further validation; every other string is rejected with the parse
error (`CannotParse`, the code's `MalformedDigest`).  Unknown
algorithms are only reported — as `AlgorithmNotSupported` — by
`digester()` when hashing is attempted (and `verify` panics on its
`unwrap`, rather than returning an error). -/
theorem claim_C6 (a h s b c : Str) :
    (':' ∉ a → ':' ∉ h →
      Digest.from_str (a ++ ':' :: h) = .ok ⟨a, h⟩) ∧
    (':' ∉ s → Digest.from_str s = .error (.CannotParse s)) ∧
    (':' ∉ a → ':' ∉ b → ':' ∉ c →
      Digest.from_str (a ++ ':' :: (b ++ ':' :: c)) =
        .error (.CannotParse (a ++ ':' :: (b ++ ':' :: c)))) ∧
    (strToLower a = "sha256".data → Digest.digester ⟨a, h⟩ = .ok ()) ∧
    (strToLower a ≠ "sha256".data →
      Digest.digester ⟨a, h⟩ = .error (.AlgorithmNotSupported a)) ∧
    (strToLower a = "sha256".data →
      Digest.verify (fun _ => h) ⟨a, h⟩ [] = .ok true) ∧
    (strToLower a ≠ "sha256".data →
      Digest.verify (fun _ => h) ⟨a, h⟩ [] = .panic) := by
  refine ⟨?_, ?_, ?_, ?_, ?_, ?_, ?_⟩
  · intro ha hh
    unfold Digest.from_str
    rw [splitOn_pair ha hh]
  · intro hs
    unfold Digest.from_str
    have hsp : s.splitOn ':' = [s] :=
      List.splitOnP_eq_single _ _
        (by
          intro x hx
          simp only [beq_iff_eq]
          intro he
          exact hs (he ▸ hx))
    rw [hsp]
  · intro ha hb hc
    unfold Digest.from_str
    rw [splitOn_triple ha hb hc]
  · intro halg
    unfold Digest.digester
    rw [if_pos halg]
  · intro halg
    unfold Digest.digester
    rw [if_neg halg]
  · intro halg
    unfold Digest.verify Digest.digester
    rw [if_pos halg]
    simp
  · intro halg
    unfold Digest.verify Digest.digester
    rw [if_neg halg]

/-- C6 witness: the amended clauses at concrete digests. -/
theorem claim_C6_witness :
    (':' ∉ "sha256".data → ':' ∉ "zz".data →
      Digest.from_str ("sha256".data ++ ':' :: "zz".data) =
        .ok ⟨"sha256".data, "zz".data⟩) ∧
    (':' ∉ "deadbeef".data →
      Digest.from_str "deadbeef".data =
        .error (.CannotParse "deadbeef".data)) ∧
    (':' ∉ "sha256".data → ':' ∉ "a".data → ':' ∉ "b".data →
      Digest.from_str ("sha256".data ++ ':' :: ("a".data ++ ':' :: "b".data)) =
        .error (.CannotParse
          ("sha256".data ++ ':' :: ("a".data ++ ':' :: "b".data)))) ∧
    (strToLower "sha256".data = "sha256".data →
      Digest.digester ⟨"sha256".data, "zz".data⟩ = .ok ()) ∧
    (strToLower "sha256".data ≠ "sha256".data →
      Digest.digester ⟨"sha256".data, "zz".data⟩ =
        .error (.AlgorithmNotSupported "sha256".data)) ∧
    (strToLower "sha256".data = "sha256".data →
      Digest.verify (fun _ => "zz".data) ⟨"sha256".data, "zz".data⟩ [] =
        .ok true) ∧
    (strToLower "sha256".data ≠ "sha256".data →
      Digest.verify (fun _ => "zz".data) ⟨"sha256".data, "zz".data⟩ [] =
        .panic) :=
  claim_C6 "sha256".data "zz".data "deadbeef".data "a".data "b".data

/-- C7 counterexample: the claim fixes the Accept-header priority order
as OCI index, OCI manifest, Docker schema2, Docker list; the code joins
`DEFAULT_SUPPORTED_MANIFESTS` in the order Docker schema2, Docker list,
OCI index, OCI manifest. -/
theorem claim_C7_counterexample :
    accept_header_value ≠
      ("application/vnd.oci.image.index.v1+json, application/vnd.oci.image.manifest.v1+json, application/vnd.docker.distribution.manifest.v2+json, application/vnd.docker.distribution.manifest.list.v2+json").data ∧
    accept_header_value =
      ("application/vnd.docker.distribution.manifest.v2+json, application/vnd.docker.distribution.manifest.list.v2+json, application/vnd.oci.image.index.v1+json, application/vnd.oci.image.manifest.v1+json").data :=
  ⟨by decide, rfl⟩

/-- C7 (amended): every manifest fetch sends an Accept header listing
all four supported manifest media types, in the source order Docker v2
schema2 manifest, Docker v2 manifest list, OCI image index, OCI image
manifest, joined by `", "`; and the `Content-Type` echoed by the
response is returned as the manifest's authoritative media type. -/
theorem claim_C7
    (performRequest : HttpRequest → Except ClientError HttpResponse)
    (auth : Bool) (token repo path ref ct : Str) (resp : HttpResponse) :
    DEFAULT_SUPPORTED_MANIFESTS =
      [MEDIA_TYPE_DOCKER_V2_SCHEMA2_MANIFEST, MEDIA_TYPE_DOCKER_V2_LIST,
        MEDIA_TYPE_IMAGE_INDEX, MEDIA_TYPE_IMAGE_MANIFEST] ∧
    accept_header_value =
      ("application/vnd.docker.distribution.manifest.v2+json, application/vnd.docker.distribution.manifest.list.v2+json, application/vnd.oci.image.index.v1+json, application/vnd.oci.image.manifest.v1+json").data ∧
    (mk_manifest_request auth token repo path ref).accept =
      some accept_header_value ∧
    (performRequest (mk_manifest_request auth token repo path ref) =
        .ok resp →
      resp.content_type = some ct →
      do_get_manifest performRequest auth token repo path ref =
        .ok ⟨resp.body, ct⟩) := by
  refine ⟨rfl, rfl, rfl, ?_⟩
  intro hreq hct
  unfold do_get_manifest
  rw [hreq]
  dsimp only
  rw [hct]

/-- C7 witness: the response's Content-Type is echoed at a concrete
request/response pair. -/
theorem claim_C7_witness :
    DEFAULT_SUPPORTED_MANIFESTS =
      [MEDIA_TYPE_DOCKER_V2_SCHEMA2_MANIFEST, MEDIA_TYPE_DOCKER_V2_LIST,
        MEDIA_TYPE_IMAGE_INDEX, MEDIA_TYPE_IMAGE_MANIFEST] ∧
    accept_header_value =
      ("application/vnd.docker.distribution.manifest.v2+json, application/vnd.docker.distribution.manifest.list.v2+json, application/vnd.oci.image.index.v1+json, application/vnd.oci.image.manifest.v1+json").data ∧
    (mk_manifest_request true "T".data "r/".data "library/fedora".data
        "latest".data).accept = some accept_header_value ∧
    ((fun _ => .ok ⟨some "application/vnd.docker.distribution.manifest.v2+json".data, [1]⟩ :
        HttpRequest → Except ClientError HttpResponse)
        (mk_manifest_request true "T".data "r/".data "library/fedora".data
          "latest".data) =
        .ok ⟨some "application/vnd.docker.distribution.manifest.v2+json".data, [1]⟩ →
      (⟨some "application/vnd.docker.distribution.manifest.v2+json".data, [1]⟩ :
          HttpResponse).content_type =
        some "application/vnd.docker.distribution.manifest.v2+json".data →
      do_get_manifest
          (fun _ => .ok ⟨some "application/vnd.docker.distribution.manifest.v2+json".data, [1]⟩)
          true "T".data "r/".data "library/fedora".data "latest".data =
        .ok ⟨[1], "application/vnd.docker.distribution.manifest.v2+json".data⟩) :=
  claim_C7
    (fun _ => .ok ⟨some "application/vnd.docker.distribution.manifest.v2+json".data, [1]⟩)
    true "T".data "r/".data "library/fedora".data "latest".data
    "application/vnd.docker.distribution.manifest.v2+json".data
    ⟨some "application/vnd.docker.distribution.manifest.v2+json".data, [1]⟩

/-- C8: pulling into an existing layout path without `force` returns
the already-exists (`InvalidInput`) error before any filesystem effect:
no delete, create or write happens, whatever `perform_image_pull` would
have done. -/
theorem claim_C8 (performPull : PRes PullError Unit × List FsEffect)
    (image_name : Str) (r : DockerReference) (clean_on_err : Bool)
    (h : parse_image_name image_name = .ok r) :
    pull_container_image performPull true image_name false clean_on_err =
      ((.err .alreadyExists), []) := by
  unfold pull_container_image
  rw [h]
  rfl

/-- C8 witness: the precondition error at the concrete reference
`docker://fedora`. -/
theorem claim_C8_witness :
    pull_container_image (.ok (), []) true "docker://fedora".data false
        true = ((.err .alreadyExists), []) :=
  claim_C8 (.ok (), []) "docker://fedora".data
    ⟨⟨"docker.io".data, "library/fedora".data⟩, "latest".data, none,
      "fedora".data⟩ true rfl

/-- C9 counterexample: the claim keys whiteout handling on the
*basename starting with* `.wh.`; the code keys it on the path string
*containing* `.wh.` anywhere (`path.contains(WHITEOUT_PREFIX)`) and
then removes *every* occurrence (`replace`).  The entry `a.wh.b` — an
ordinary file name whose basename does not start with `.wh.` — should
be unpacked according to the claim, but the code creates a `char(0,0)`
device at `ab`. -/
theorem claim_C9_counterexample :
    apply_layer_entry "a.wh.b".data = .charDev "ab".data ∧
    apply_layer_entry "a.wh.b".data ≠ .unpack "a.wh.b".data :=
  ⟨rfl, by decide⟩

/-- C9 (amended): an entry is treated as a whiteout iff its path string
contains `.wh.` anywhere.  A whiteout whose final path component is
`.wh..wh..opq` marks the parent directory under `diff/` opaque
(`trusted.overlay.opaque=y`); any other whiteout gets a `char(0,0)`
device at the path with every occurrence of `.wh.` removed; entries not
containing `.wh.` are unpacked ordinarily under `diff/`.  For a
well-formed whiteout entry `dir/.wh.name` (no further `.wh.` or dots in
the surrounding pieces) this coincides with the claim: the device is
created at `dir/name`, and the spec's whiteout test vector behaves as
documented. -/
theorem claim_C9 (pth dir base : Str) :
    (containsSub whiteoutMarker pth = false →
      apply_layer_entry pth = .unpack pth) ∧
    (containsSub whiteoutMarker pth = true →
      lastComponent pth = whiteoutOpaque →
      apply_layer_entry pth = .setOpaque (parentPath pth)) ∧
    (containsSub whiteoutMarker pth = true →
      lastComponent pth ≠ whiteoutOpaque →
      apply_layer_entry pth = .charDev (replaceAll whiteoutMarker pth)) ∧
    ('.' ∉ dir → '/' ∉ dir → containsSub whiteoutMarker base = false →
      '/' ∉ base →
      apply_layer_entry (dir ++ '/' :: (whiteoutMarker ++ base)) =
        .charDev (dir ++ '/' :: base)) ∧
    apply_layer_actions ["dir/.wh.deleted".data, "dir/.wh..wh..opq".data] =
      [.charDev "dir/deleted".data, .setOpaque "dir".data] := by
  refine ⟨?_, ?_, ?_, ?_, rfl⟩
  · intro hc
    unfold apply_layer_entry
    rw [hc]
    rfl
  · intro hc hop
    unfold apply_layer_entry handle_whiteout
    rw [hc, if_pos hop]
    rfl
  · intro hc hop
    unfold apply_layer_entry handle_whiteout
    rw [hc, if_neg hop]
    rfl
  · intro hdot hdsl hbase hbsl
    have hmarker : whiteoutMarker = '.' :: "wh.".data := rfl
    have hcont : containsSub whiteoutMarker
        (dir ++ '/' :: (whiteoutMarker ++ base)) = true := by
      apply containsSub_append_right
      show containsSub whiteoutMarker ('/' :: (whiteoutMarker ++ base)) = true
      unfold containsSub
      have hself : containsSub whiteoutMarker (whiteoutMarker ++ base) = true :=
        containsSub_self_append base
      rw [hself]
      simp
    have hsplit : (dir ++ '/' :: (whiteoutMarker ++ base)).splitOn '/' =
        [dir, whiteoutMarker ++ base] := by
      have hnsl : '/' ∉ whiteoutMarker ++ base := by
        simp only [List.mem_append, not_or]
        exact ⟨by decide, hbsl⟩
      have h1 : (dir ++ '/' :: (whiteoutMarker ++ base)).splitOnP
          (fun c => c == '/') =
          dir :: (whiteoutMarker ++ base).splitOnP (fun c => c == '/') :=
        List.splitOnP_first _ dir
          (by
            intro x hx
            simp only [beq_iff_eq]
            intro he
            exact hdsl (he ▸ hx)) '/' (by simp) _
      have h2 : (whiteoutMarker ++ base).splitOnP (fun c => c == '/') =
          [whiteoutMarker ++ base] :=
        List.splitOnP_eq_single _ _
          (by
            intro x hx
            simp only [beq_iff_eq]
            intro he
            exact hnsl (he ▸ hx))
      show (dir ++ '/' :: (whiteoutMarker ++ base)).splitOnP
          (fun c => c == '/') = [dir, whiteoutMarker ++ base]
      rw [h1, h2]
    have hlast : lastComponent (dir ++ '/' :: (whiteoutMarker ++ base)) =
        whiteoutMarker ++ base := by
      unfold lastComponent
      rw [hsplit]
      rfl
    have hneop : whiteoutMarker ++ base ≠ whiteoutOpaque := by
      intro he
      have hop2 : whiteoutOpaque = whiteoutMarker ++ ".wh..opq".data := rfl
      rw [hop2] at he
      have hb2 : base = ".wh..opq".data := by
        have := congrArg (List.drop whiteoutMarker.length) he
        rwa [List.drop_left, List.drop_left] at this
      rw [hb2] at hbase
      exact absurd hbase (by decide)
    unfold apply_layer_entry handle_whiteout
    rw [hcont, hlast, if_neg hneop]
    have hrepl : replaceAll whiteoutMarker
        (dir ++ '/' :: (whiteoutMarker ++ base)) = dir ++ '/' :: base := by
      rw [hmarker] at hbase ⊢
      have hshape : dir ++ '/' :: ('.' :: "wh.".data ++ base) =
          (dir ++ ['/']) ++ ('.' :: "wh.".data) ++ base := by
        simp
      rw [hshape]
      rw [replaceAll_once
        (by
          intro c hcmem
          rcases List.mem_append.mp hcmem with hcd | hcs
          · intro he
            exact hdot (he ▸ hcd)
          · intro he
            rcases List.mem_singleton.mp hcs with rfl
            exact absurd he (by decide)) hbase]
      simp
    rw [hrepl]
    rfl

/-- Witness for C9: the spec's vector entries, one per branch — an
ordinary entry unpacks, the opaque marker sets the xattr on the parent,
and a well-formed whiteout yields the char device with `.wh.` stripped. -/
theorem claim_C9_witness :
    apply_layer_entry "dir/file".data = .unpack "dir/file".data ∧
    apply_layer_entry "dir/.wh..wh..opq".data =
      .setOpaque (parentPath "dir/.wh..wh..opq".data) ∧
    apply_layer_entry "dir/.wh.other".data =
      .charDev (replaceAll whiteoutMarker "dir/.wh.other".data) ∧
    apply_layer_entry ("dir".data ++ '/' :: (whiteoutMarker ++ "deleted".data)) =
      .charDev ("dir".data ++ '/' :: "deleted".data) :=
  ⟨(claim_C9 "dir/file".data [] []).1 (by decide),
   (claim_C9 "dir/.wh..wh..opq".data [] []).2.1 (by decide) (by decide),
   (claim_C9 "dir/.wh.other".data [] []).2.2.1 (by decide) (by decide),
   (claim_C9 [] "dir".data "deleted".data).2.2.2.1
     (by decide) (by decide) (by decide) (by decide)⟩

/-- C10: `parse_image_name` on an input whose transport is not
registered (`focker:fedora`) panics — it `unwrap`s the failed map
lookup — while `transport_from_image_name` returns `None` for the very
same input. -/
theorem claim_C10 :
    parse_image_name "focker:fedora".data = .panic ∧
    transport_from_image_name "focker:fedora".data = none :=
  ⟨rfl, rfl⟩

end Intermodal
